import Mathlib

/-! Robin Hood hash table (`src/hashtable.h`)

A shallow embedding of `RobinHoodHashTable<KeyType, ValueType, Hash>`.

* The two parallel vectors `data_` (`Node*`, `nullptr` when vacant) and `psl_`
  (`size_t`, `EMPTY` when vacant) are two lists; `nullptr` and the sentinel
  `EMPTY = (size_t)-1` are both `none`.  The sentinel is never used as a number
  in the source: every numeric comparison of a `psl_` cell is guarded by
  `!= EMPTY`.
* `size_t` counters are natural numbers: a counter or a probe length would have
  to exceed the address space to wrap.
* `hasher_` is the parameter `hash : K → Nat`, key equality is decidable equality.
* Every `while` loop whose trip count is not bounded by the shape of its input
  takes a `fuel` argument and returns `none` when the fuel runs out; `none` is
  also the result of an access outside a vector or through `nullptr`.
  `Returns f r` says that the computation `f` terminates with result `r`.
-/

namespace RobinHoodHashTable

/-- The fields `data_`, `psl_` and `size_` of the class (`hashtable.h:306-309`). -/
structure Table (K V : Type) where
  data_ : List (Option (K × V))
  psl_ : List (Option Nat)
  size_ : Nat
  deriving DecidableEq

/-- A fuelled computation `f` terminates with result `r`: every sufficiently large
fuel gives `some r`. -/
def Returns {α : Type} (f : Nat → Option α) (r : α) : Prop :=
  ∃ N, ∀ fuel, N ≤ fuel → f fuel = some r

/-- The default constructor (`hashtable.h:13`): one vacant slot, size 0. -/
def construct {K V : Type} : Table K V := ⟨[none], [none], 0⟩

/-- The step `++index; if (index == data_.size()) index = 0;` used by every probe loop. -/
def advance (index size : Nat) : Nat := if index + 1 = size then 0 else index + 1

/-- The test `data_.size() * MAX_LOAD_FACTOR_ < size_` (`hashtable.h:287,295`) with
`MAX_LOAD_FACTOR_ = 0.6`.  The source evaluates it in `double`; for capacities below
`2^50` the rounded product `capacity * 0.6` and the exact `3 * capacity / 5` have no integer
strictly between them (and coincide when 5 divides the capacity), so the test is decided by
`3 * capacity < 5 * size`. -/
def overloaded (capacity size : Nat) : Bool := decide (3 * capacity < 5 * size)

/-- How the probe loop of `insert(Node*)` is left: by the `return` in the duplicate branch
(`hashtable.h:273-277`), or by the loop condition at a vacant slot (`hashtable.h:268`). -/
inductive InsertExit (K V : Type) where
  | duplicate (data_ : List (Option (K × V))) (psl_ : List (Option Nat))
  | vacant (data_ : List (Option (K × V))) (psl_ : List (Option Nat))
      (index current_psl : Nat) (current_node : K × V)
  deriving DecidableEq

/-- The three iterators held by `Iterator<isConst>` (`hashtable.h:173-175`), as offsets from
`data_.begin()` and `psl_.begin()`. -/
structure Iterator where
  data_iterator_ : Nat
  psl_iterator_ : Nat
  psl_end_iterator_ : Nat
  deriving DecidableEq

/-- The outcome of `at`: the `std::out_of_range` exception or the value returned. -/
inductive AtResult (V : Type) where
  | out_of_range
  | value (v : V)
  deriving DecidableEq

section Operations

variable {K V : Type} [DecidableEq K]

/-- The `while (psl_[index] != EMPTY)` loop of `insert(Node*)` (`hashtable.h:268-284`).
A slot that is not `EMPTY` but holds `nullptr` gives no result where the source would
dereference it or carry it on. -/
def insertLoop : Nat → List (Option (K × V)) → List (Option Nat) → Nat → Nat → K × V →
    Option (InsertExit K V)
  | 0, _, _, _, _, _ => none
  | fuel + 1, data_, psl_, index, current_psl, current_node =>
    match psl_[index]? with
    | none => none
    | some none => some (InsertExit.vacant data_ psl_ index current_psl current_node)
    | some (some p) =>
      if p < current_psl then
        match data_[index]? with
        | some (some resident) =>
          insertLoop fuel (data_.set index (some current_node)) (psl_.set index (some current_psl))
            (advance index data_.length) (p + 1) resident
        | _ => none
      else if p = current_psl then
        match data_[index]? with
        | some (some resident) =>
          if resident.1 = current_node.1 then some (InsertExit.duplicate data_ psl_)
          else insertLoop fuel data_ psl_ (advance index data_.length) (current_psl + 1) current_node
        | _ => none
      else insertLoop fuel data_ psl_ (advance index data_.length) (current_psl + 1) current_node

/-- The doubling loop of `rebuild` (`hashtable.h:295-297`); returns the new capacity. -/
def growLoop : Nat → Nat → Nat → Option Nat
  | 0, _, _ => none
  | fuel + 1, capacity, size =>
    if overloaded capacity size then growLoop fuel (2 * capacity) size else some capacity

/-- The `for` loop of `rebuild` (`hashtable.h:300-304`) over the clones of `psl_` and `data_`,
re-inserting with `ins` every node whose clone cell is not `EMPTY`. -/
def reinsertAll (ins : Table K V → K × V → Option (Table K V)) :
    List (Option Nat) → List (Option (K × V)) → Table K V → Option (Table K V)
  | _, [], t => some t
  | [], _ :: _, _ => none
  | none :: ps, _ :: ds, t => reinsertAll ins ps ds t
  | some _ :: _, none :: _, _ => none
  | some _ :: ps, some node :: ds, t => (ins t node).bind (reinsertAll ins ps ds)

/-- The body of `rebuild` (`hashtable.h:291-305`), with the recursive `insert` as parameter. -/
def rebuildWith (ins : Table K V → K × V → Option (Table K V)) (fuel : Nat) (t : Table K V) :
    Option (Table K V) :=
  match growLoop fuel t.data_.length t.size_ with
  | none => none
  | some capacity =>
    reinsertAll ins t.psl_ t.data_ ⟨List.replicate capacity none, List.replicate capacity none, 0⟩

/-- The private `insert(Node *node)` (`hashtable.h:263-290`). -/
def insertNode (hash : K → Nat) : Nat → Table K V → K × V → Option (Table K V)
  | 0 => fun _ _ => none
  | fuel + 1 => fun t node =>
    match insertLoop fuel t.data_ t.psl_ (hash node.1 % t.data_.length) 0 node with
    | none => none
    | some (InsertExit.duplicate data psl) => some ⟨data, psl, t.size_ + 1 - 1⟩
    | some (InsertExit.vacant data psl index current_psl current_node) =>
      if overloaded (data.set index (some current_node)).length (t.size_ + 1) then
        rebuildWith (insertNode hash fuel) fuel
          ⟨data.set index (some current_node), psl.set index (some current_psl), t.size_ + 1⟩
      else
        some ⟨data.set index (some current_node), psl.set index (some current_psl), t.size_ + 1⟩

/-- The private `rebuild()` (`hashtable.h:291-305`). -/
def rebuild (hash : K → Nat) (fuel : Nat) (t : Table K V) : Option (Table K V) :=
  rebuildWith (insertNode hash fuel) fuel t

/-- The public `insert(std::pair<KeyType, ValueType>)` (`hashtable.h:84-86`). -/
def insert (hash : K → Nat) (fuel : Nat) (t : Table K V) (node : K × V) : Option (Table K V) :=
  insertNode hash fuel t node

/-- The loop `while (psl_iterator_ != psl_end_iterator_ && *psl_iterator_ == EMPTY)` of the
iterator (`hashtable.h:147-150,157`), run over the cells from `psl_iterator_` to the end of
`psl_`; returns the advanced `data_iterator_` and `psl_iterator_`. -/
def skipEmpty : List (Option Nat) → Nat → Nat → Nat × Nat
  | none :: rest, data_iterator, psl_iterator => skipEmpty rest (data_iterator + 1) (psl_iterator + 1)
  | _, data_iterator, psl_iterator => (data_iterator, psl_iterator)

/-- The constructor `Iterator(data_iterator, psl_iterator, psl_end_iterator)`
(`hashtable.h:145-151`) over the vector `psl_`. -/
def Iterator.create (psl_ : List (Option Nat)) (data_iterator psl_iterator psl_end_iterator : Nat) :
    Iterator :=
  ⟨(skipEmpty ((psl_.take psl_end_iterator).drop psl_iterator) data_iterator psl_iterator).1,
   (skipEmpty ((psl_.take psl_end_iterator).drop psl_iterator) data_iterator psl_iterator).2,
   psl_end_iterator⟩

/-- The pre-increment `operator++` (`hashtable.h:153-159`). -/
def Iterator.increment (psl_ : List (Option Nat)) (it : Iterator) : Iterator :=
  ⟨(skipEmpty ((psl_.take it.psl_end_iterator_).drop (it.psl_iterator_ + 1))
      (it.data_iterator_ + 1) (it.psl_iterator_ + 1)).1,
   (skipEmpty ((psl_.take it.psl_end_iterator_).drop (it.psl_iterator_ + 1))
      (it.data_iterator_ + 1) (it.psl_iterator_ + 1)).2,
   it.psl_end_iterator_⟩

/-- The member `begin()` (`hashtable.h:181-183`). -/
def Table.begin (t : Table K V) : Iterator := Iterator.create t.psl_ 0 0 t.psl_.length

/-- The member `end()` (`hashtable.h:185-187`). -/
def Table.end_ (t : Table K V) : Iterator :=
  Iterator.create t.psl_ t.data_.length t.psl_.length t.psl_.length

/-- The `operator==` of iterators (`hashtable.h:138-140`): only `data_iterator_` is compared. -/
def Iterator.same (a b : Iterator) : Bool := decide (a.data_iterator_ = b.data_iterator_)

/-- The dereference `*it` / `it->` (`hashtable.h:165-170`): the node `data_iterator_` points to. -/
def Table.deref (t : Table K V) (it : Iterator) : Option (K × V) :=
  (t.data_[it.data_iterator_]?).join

/-- The probe loop of `find` (`hashtable.h:200-211`); `some index` is the slot of the match,
`none` the exit through the loop condition. -/
def findLoop : Nat → List (Option (K × V)) → List (Option Nat) → K → Nat → Nat →
    Option (Option Nat)
  | 0, _, _, _, _, _ => none
  | fuel + 1, data_, psl_, key, index, current_psl =>
    match psl_[index]? with
    | none => none
    | some none => some none
    | some (some p) =>
      if current_psl ≤ p then
        if p = current_psl then
          match data_[index]? with
          | some (some resident) =>
            if resident.1 = key then some (some index)
            else findLoop fuel data_ psl_ key (advance index data_.length) (current_psl + 1)
          | _ => none
        else findLoop fuel data_ psl_ key (advance index data_.length) (current_psl + 1)
      else some none

/-- The member `find` (`hashtable.h:197-213`, and its `const` twin `215-231`). -/
def find (hash : K → Nat) (fuel : Nat) (t : Table K V) (key : K) : Option Iterator :=
  match findLoop fuel t.data_ t.psl_ key (hash key % t.data_.length) 0 with
  | none => none
  | some (some index) => some (Iterator.create t.psl_ index index t.psl_.length)
  | some none => some t.end_

/-- The backward-shift loop of `erase` (`hashtable.h:102-110`); returns the vectors and the
final `index`. -/
def shiftLoop : Nat → List (Option (K × V)) → List (Option Nat) → Nat → Nat →
    Option (List (Option (K × V)) × List (Option Nat) × Nat)
  | 0, _, _, _, _ => none
  | fuel + 1, data_, psl_, index, next_index =>
    match psl_[next_index]? with
    | none => none
    | some none => some (data_, psl_, index)
    | some (some q) =>
      if q ≠ 0 then
        match data_[next_index]? with
        | none => none
        | some moved =>
          shiftLoop fuel (data_.set index moved) (psl_.set index (some (q - 1))) next_index
            (advance next_index data_.length)
      else some (data_, psl_, index)

/-- The probe loop of `erase` with the removal in its body (`hashtable.h:91-121`). -/
def eraseLoop : Nat → Table K V → K → Nat → Nat → Option (Table K V)
  | 0, _, _, _, _ => none
  | fuel + 1, t, key, index, current_psl =>
    match t.psl_[index]? with
    | none => none
    | some none => some t
    | some (some p) =>
      if current_psl ≤ p then
        if p = current_psl then
          match t.data_[index]? with
          | some (some resident) =>
            if resident.1 = key then
              match shiftLoop fuel (t.data_.set index none) (t.psl_.set index none) index
                  (advance index t.data_.length) with
              | none => none
              | some (data, psl, last) => some ⟨data.set last none, psl.set last none, t.size_ - 1⟩
            else eraseLoop fuel t key (advance index t.data_.length) (current_psl + 1)
          | _ => none
        else eraseLoop fuel t key (advance index t.data_.length) (current_psl + 1)
      else some t

/-- The member `erase` (`hashtable.h:88-122`). -/
def erase (hash : K → Nat) (fuel : Nat) (t : Table K V) (key : K) : Option (Table K V) :=
  eraseLoop fuel t key (hash key % t.data_.length) 0

/-- The member `clear` (`hashtable.h:251-260`). -/
def clear (t : Table K V) : Table K V :=
  ⟨t.data_.map (fun _ => none), List.replicate t.data_.length none, 0⟩

/-- The member `size` (`hashtable.h:74-76`). -/
def size (t : Table K V) : Nat := t.size_

/-- The member `operator[]` (`hashtable.h:233-241`): the table afterwards and the slot whose
`second` the returned reference denotes. -/
def operatorIndex [Inhabited V] (hash : K → Nat) (fuel : Nat) (t : Table K V) (key : K) :
    Option (Table K V × Nat) :=
  match find hash fuel t key with
  | none => none
  | some it =>
    if it.same t.end_ then
      match insert hash fuel t (key, default) with
      | none => none
      | some t1 =>
        match find hash fuel t1 key with
        | none => none
        | some it1 =>
          match t1.deref it1 with
          | none => none
          | some _ => some (t1, it1.data_iterator_)
    else
      match t.deref it with
      | none => none
      | some _ => some (t, it.data_iterator_)

/-- Reading a reference returned by `operator[]`: the `second` of the node in that slot. -/
def readRef (t : Table K V) (slot : Nat) : Option V :=
  ((t.data_[slot]?).join).map Prod.snd

/-- Assigning through a reference returned by `operator[]`: the `second` of the node in that
slot is overwritten, the key and `psl_` are untouched. -/
def writeRef (t : Table K V) (slot : Nat) (value : V) : Table K V :=
  match (t.data_[slot]?).join with
  | none => t
  | some node => ⟨t.data_.set slot (some (node.1, value)), t.psl_, t.size_⟩

/-- The member `at` (`hashtable.h:243-249`). -/
def atKey (hash : K → Nat) (fuel : Nat) (t : Table K V) (key : K) : Option (AtResult V) :=
  match find hash fuel t key with
  | none => none
  | some it =>
    if it.same t.end_ then some AtResult.out_of_range
    else
      match t.deref it with
      | none => none
      | some node => some (AtResult.value node.2)

/-- The traversal `for (it = begin(); it != end(); ++it)` collecting `*it`, started at `it`. -/
def traverseFrom : Nat → Table K V → Iterator → Option (List (K × V))
  | 0, _, _ => none
  | fuel + 1, t, it =>
    if it.same t.end_ then some []
    else
      match t.deref it with
      | none => none
      | some node => (traverseFrom fuel t (it.increment t.psl_)).map (fun rest => node :: rest)

/-- The full traversal from `begin()` to `end()`. -/
def traverse (fuel : Nat) (t : Table K V) : Option (List (K × V)) :=
  traverseFrom fuel t t.begin

end Operations

section Invariants

variable {K V : Type}

/-- The number of cells of `psl_` that are not `EMPTY`. -/
def occupied (psl : List (Option Nat)) : Nat := psl.countP Option.isSome

/-- The class invariant of the two vectors: they have one common non-zero length (I1), a cell
is `EMPTY` exactly when its node is `nullptr`, every stored probe length is the wrap-around
distance of the slot from the home slot of its key (I2), probe lengths grow by at most one
from a slot to the next and a slot following a vacant one is at home (Robin Hood order), and
keys are pairwise distinct (I5). -/
structure Inv (hash : K → Nat) (data : List (Option (K × V))) (psl : List (Option Nat)) :
    Prop where
  len : psl.length = data.length
  pos : 0 < data.length
  sync : ∀ i : Nat, psl[i]? = some none ↔ data[i]? = some none
  home : ∀ (i p : Nat) (x : K × V), psl[i]? = some (some p) → data[i]? = some (some x) →
    p < data.length ∧ (hash x.1 + p) % data.length = i
  order : ∀ i : Nat, i < data.length → ∀ q : Nat, psl[advance i data.length]? = some (some q) →
    q = 0 ∨ ∃ p, psl[i]? = some (some p) ∧ q ≤ p + 1
  uniq : ∀ (i j : Nat) (x y : K × V), data[i]? = some (some x) → data[j]? = some (some y) →
    x.1 = y.1 → i = j

/-- The invariant of a table between two public operations: the invariant of the vectors,
`size_` counts the occupied slots, and the load bound `size_ ≤ 0.6 * capacity` (I4). -/
structure WF (hash : K → Nat) (t : Table K V) : Prop where
  inv : Inv hash t.data_ t.psl_
  count : t.size_ = occupied t.psl_
  load : 5 * t.size_ ≤ 3 * t.data_.length

/-- Key `key` is stored in the table with value `value`: some slot holds that node. -/
def Table.holds (t : Table K V) (key : K) (value : V) : Prop :=
  ∃ i : Nat, t.data_[i]? = some (some (key, value))

/-- Key `key` is stored in the table: some slot holds a node with that key. -/
def Table.stores (t : Table K V) (key : K) : Prop :=
  ∃ (i : Nat) (value : V), t.data_[i]? = some (some (key, value))

/-- The tables that the public interface can produce from the default-constructed table:
`insert`, `erase`, `clear`, `operator[]`, and assignment through the reference that
`operator[]` returns. -/
inductive Reachable [DecidableEq K] [Inhabited V] (hash : K → Nat) : Table K V → Prop
  | construct : Reachable hash construct
  | insert (t t1 : Table K V) (fuel : Nat) (node : K × V) :
      Reachable hash t → insert hash fuel t node = some t1 → Reachable hash t1
  | erase (t t1 : Table K V) (fuel : Nat) (key : K) :
      Reachable hash t → erase hash fuel t key = some t1 → Reachable hash t1
  | clear (t : Table K V) : Reachable hash t → Reachable hash (clear t)
  | operatorIndex (t t1 : Table K V) (fuel : Nat) (key : K) (slot : Nat) :
      Reachable hash t → operatorIndex hash fuel t key = some (t1, slot) → Reachable hash t1
  | assign (t t1 : Table K V) (fuel : Nat) (key : K) (slot : Nat) (value : V) :
      Reachable hash t → operatorIndex hash fuel t key = some (t1, slot) →
      Reachable hash (writeRef t1 slot value)

/-- Robin Hood order of a vector of probe lengths of capacity `n`. -/
def Ordered (n : Nat) (psl : List (Option Nat)) : Prop :=
  ∀ i : Nat, i < n → ∀ q : Nat, psl[advance i n]? = some (some q) →
    q = 0 ∨ ∃ p, psl[i]? = some (some p) ∧ q ≤ p + 1

/-- The loop invariant of `insertLoop`: the vectors satisfy the class invariant, the carried
node `x` is at distance `c` from its home, its key is in no slot, and `c` exceeds the probe
length of the slot just passed by at most one. -/
structure Carry (hash : K → Nat) (data : List (Option (K × V))) (psl : List (Option Nat))
    (index c : Nat) (x : K × V) : Prop where
  inv : Inv hash data psl
  idx : index < data.length
  home : (hash x.1 + c) % data.length = index
  fresh : ∀ (i : Nat) (y : K × V), data[i]? = some (some y) → y.1 ≠ x.1
  prev : ∀ i : Nat, i < data.length → i ≠ index → advance i data.length = index →
    c = 0 ∨ ∃ p, psl[i]? = some (some p) ∧ c ≤ p + 1

/-- The loop invariant of `shiftLoop`: apart from slot `index`, whose content is stale, the
vectors satisfy the class invariant, and the Robin Hood order holds for some probe length
put into slot `index`. -/
structure Hole (hash : K → Nat) (data : List (Option (K × V))) (psl : List (Option Nat))
    (index : Nat) : Prop where
  len : psl.length = data.length
  idx : index < data.length
  sync : ∀ i : Nat, i ≠ index → (psl[i]? = some none ↔ data[i]? = some none)
  home : ∀ (i p : Nat) (x : K × V), i ≠ index → psl[i]? = some (some p) →
    data[i]? = some (some x) → p < data.length ∧ (hash x.1 + p) % data.length = i
  order : ∃ p0, Ordered data.length (psl.set index (some p0))
  uniq : ∀ (i j : Nat) (x y : K × V), i ≠ index → j ≠ index → data[i]? = some (some x) →
    data[j]? = some (some y) → x.1 = y.1 → i = j

/-- Table `t1` is table `t` with the node `x` added: it satisfies the invariant of the
vectors, its counter is the number of occupied cells and one more than before, and its nodes
are those of `t` and `x`. -/
structure Added (hash : K → Nat) (t : Table K V) (x : K × V) (t1 : Table K V) : Prop where
  inv : Inv hash t1.data_ t1.psl_
  count : t1.size_ = occupied t1.psl_
  size : t1.size_ = t.size_ + 1
  mem : ∀ y, (∃ i : Nat, t1.data_[i]? = some (some y)) ↔
    ((∃ i : Nat, t.data_[i]? = some (some y)) ∨ y = x)

/-- Table `t1` is table `t` without the node of key `key`: it satisfies the invariant of the
vectors, its counter is the number of occupied cells and one less than before, its nodes are
those of `t` with another key, and the capacity is the same. -/
structure Removed (hash : K → Nat) (t : Table K V) (key : K) (t1 : Table K V) : Prop where
  inv : Inv hash t1.data_ t1.psl_
  count : t1.size_ = occupied t1.psl_
  size : t1.size_ + 1 = t.size_
  mem : ∀ y, (∃ i : Nat, t1.data_[i]? = some (some y)) ↔
    ((∃ i : Nat, t.data_[i]? = some (some y)) ∧ y.1 ≠ key)
  len : t1.data_.length = t.data_.length

/-- A fuelled computation keeps its result when given more fuel. -/
def Mono {α : Type} (f : Nat → Option α) : Prop :=
  ∀ n r, f n = some r → f (n + 1) = some r

/-- Whether some slot holds a node with key `key`, as a computation. -/
def Table.hasKey [DecidableEq K] (t : Table K V) (key : K) : Bool :=
  t.data_.any (fun cell => match cell with
    | some y => decide (y.1 = key)
    | none => false)

end Invariants

/-! ## Sample tables -/

/-- The identity hash on natural-number keys. -/
def sampleHash : Nat → Nat := fun k => k

/-- The table after `insert({0, 0})` into the default-constructed table. -/
def sample1 : Table Nat Nat := ⟨[some (0, 0), none], [some 0, none], 1⟩

/-- The table after a further `insert({1, 10})`, which rebuilds to capacity 4. -/
def sample2 : Table Nat Nat :=
  ⟨[some (0, 0), some (1, 10), none, none], [some 0, some 0, none, none], 2⟩

/-- The table after a further `insert({2, 20})`, which rebuilds to capacity 8. -/
def sample3 : Table Nat Nat :=
  ⟨[some (0, 0), some (1, 10), some (2, 20), none, none, none, none, none],
   [some 0, some 0, some 0, none, none, none, none, none], 3⟩

/-! ## Constructors from a sequence, moves, and observers -/

section Bulk

variable {K V : Type}

/-- The member `empty` (`hashtable.h:77-79`). -/
def empty (t : Table K V) : Bool := decide (t.size_ = 0)

/-- The move constructor (`hashtable.h:25-28`): the new table, and `other` afterwards.  The
members `data_`, `psl_` and `size_` are copied from `other`, then `other.data_` is cleared. -/
def moveConstruct (other : Table K V) : Table K V × Table K V :=
  (⟨other.data_, other.psl_, other.size_⟩, ⟨[], other.psl_, other.size_⟩)

/-- The move assignment (`hashtable.h:47-54`) to `self` from another object `other`: `self`
and `other` afterwards.  The former members of `self` are overwritten. -/
def moveAssign (_self other : Table K V) : Table K V × Table K V :=
  (⟨other.data_, other.psl_, other.size_⟩, ⟨[], other.psl_, other.size_⟩)

variable [DecidableEq K]

/-- The loop `for (...) insert(node)` of the two sequence constructors
(`hashtable.h:63-65,69-71`), and of a caller that inserts the pairs one by one. -/
def insertAll (hash : K → Nat) (fuel : Nat) : Table K V → List (K × V) → Option (Table K V)
  | t, [] => some t
  | t, node :: rest =>
    match insert hash fuel t node with
    | none => none
    | some t1 => insertAll hash fuel t1 rest

/-- The iterator-range constructor (`hashtable.h:60-66`): one vacant slot, then the loop of
`insert`. -/
def constructRange (hash : K → Nat) (fuel : Nat) (pairs : List (K × V)) : Option (Table K V) :=
  insertAll hash fuel ⟨List.replicate 1 none, List.replicate 1 none, 0⟩ pairs

/-- The initializer-list constructor (`hashtable.h:67-72`): `list.size() + 1` vacant slots,
then the loop of `insert`. -/
def constructList (hash : K → Nat) (fuel : Nat) (pairs : List (K × V)) : Option (Table K V) :=
  insertAll hash fuel
    ⟨List.replicate (pairs.length + 1) none, List.replicate (pairs.length + 1) none, 0⟩ pairs

/-- The capacities `data_.size()` observed after each `insert` of a sequence of inserts. -/
def capacityTrace (hash : K → Nat) (fuel : Nat) : Table K V → List (K × V) → Option (List Nat)
  | _, [] => some []
  | t, node :: rest =>
    match insert hash fuel t node with
    | none => none
    | some t1 => (capacityTrace hash fuel t1 rest).map (fun caps => t1.data_.length :: caps)

/-- The node that `find(key)` points to, `none` when it returns `end()`. -/
def lookup (hash : K → Nat) (fuel : Nat) (t : Table K V) (key : K) : Option (Option (K × V)) :=
  (find hash fuel t key).map t.deref

end Bulk

/-- The hash `k mod 8` of concrete scenario 2. -/
def hashMod8 : Nat → Nat := fun k => k % 8

/-- The table of concrete scenario 2 after the inserts of 0, 8 and 16. -/
def scenario2 : Table Nat Nat :=
  ⟨[some (0, 0), some (8, 80), some (16, 160), none, none, none, none, none],
   [some 0, some 1, some 2, none, none, none, none, none], 3⟩

/-- The table of concrete scenario 2 after `erase(8)`. -/
def scenario2Erased : Table Nat Nat :=
  ⟨[some (0, 0), some (16, 160), none, none, none, none, none, none],
   [some 0, some 1, none, none, none, none, none, none], 2⟩

/-- The table after `insert` of the keys 7, 15 and 1 with the hash `k mod 8`: key 7 is at its
home, the last slot, and key 15 has wrapped around to slot 0. -/
def wrapSample : Table Nat Nat :=
  ⟨[some (15, 150), some (1, 10), none, none, none, none, none, some (7, 70)],
   [some 1, some 0, none, none, none, none, none, some 0], 3⟩

/-- The pairs `(k, 10 k)` for the keys 0..9 of concrete scenario 1. -/
def scenario1Pairs : List (Nat × Nat) := (List.range 10).map (fun k => (k, 10 * k))

/-- The table of concrete scenario 1 after the ten inserts: capacity 32, every key at its
home. -/
def scenario1Final : Table Nat Nat :=
  ⟨(List.range 10).map (fun k => some (k, 10 * k)) ++ List.replicate 22 none,
   List.replicate 10 (some 0) ++ List.replicate 22 none, 10⟩

/-! ## Index arithmetic -/

theorem advance_eq_mod {i n : Nat} (h : i < n) : advance i n = (i + 1) % n := by
  unfold advance
  split
  · next h1 => rw [h1, Nat.mod_self]
  · next h1 => rw [Nat.mod_eq_of_lt (by omega)]

theorem advance_lt {i n : Nat} (h : i < n) : advance i n < n := by
  unfold advance
  split <;> omega

theorem advance_inj {i j n : Nat} (h : advance i n = advance j n) :
    i = j := by
  unfold advance at h
  split at h <;> split at h <;> omega

theorem advance_fixed {i n : Nat} (h : advance i n = i) : n = 1 := by
  unfold advance at h
  split at h <;> omega

theorem advance_add_mod {i n : Nat} (h : i < n) (e : Nat) :
    (advance i n + e) % n = (i + (e + 1)) % n := by
  rw [advance_eq_mod h, Nat.mod_add_mod]
  congr 1
  omega

theorem add_mod_ne_self {i j n : Nat} (hi : i < n) (h0 : 0 < j) (hj : j < n) :
    (i + j) % n ≠ i := by
  intro h
  by_cases hlt : i + j < n
  · rw [Nat.mod_eq_of_lt hlt] at h
    omega
  · have h2 : (i + j) % n = i + j - n := by
      rw [Nat.mod_eq_sub_mod (by omega), Nat.mod_eq_of_lt (by omega)]
    omega

theorem home_advance {h p n i : Nat} (hn : 0 < n) (e : (h + p) % n = i) :
    (h + (p + 1)) % n = advance i n := by
  have hi : i < n := e ▸ Nat.mod_lt _ hn
  rw [advance_eq_mod hi, ← e, Nat.mod_add_mod]
  rfl

/-! ## Counting occupied cells -/

theorem countP_set_balance {α : Type} (p : α → Bool) (l : List α) (i : Nat) (a : α)
    (h : i < l.length) :
    (l.set i a).countP p + (if p l[i] then 1 else 0) = l.countP p + (if p a then 1 else 0) := by
  induction l generalizing i with
  | nil => simp at h
  | cons b l ih =>
    cases i with
    | zero =>
      simp only [List.set_cons_zero, List.countP_cons, List.getElem_cons_zero]
      omega
    | succ i =>
      have h1 : i < l.length := by simpa using h
      have := ih i h1
      simp only [List.set_cons_succ, List.countP_cons, List.getElem_cons_succ]
      omega

theorem occupied_set_vacant {psl : List (Option Nat)} {i c : Nat} (h : psl[i]? = some none) :
    occupied (psl.set i (some c)) = occupied psl + 1 := by
  obtain ⟨hi, he⟩ := List.getElem?_eq_some.1 h
  have := countP_set_balance Option.isSome psl i (some c) hi
  simp only [he, Option.isSome_none, Option.isSome_some] at this
  simpa [occupied] using this

theorem occupied_set_taken {psl : List (Option Nat)} {i c p : Nat}
    (h : psl[i]? = some (some p)) : occupied (psl.set i (some c)) = occupied psl := by
  obtain ⟨hi, he⟩ := List.getElem?_eq_some.1 h
  have := countP_set_balance Option.isSome psl i (some c) hi
  simp only [he, Option.isSome_some] at this
  simpa [occupied] using this

theorem occupied_set_none_taken {psl : List (Option Nat)} {i p : Nat}
    (h : psl[i]? = some (some p)) : occupied (psl.set i none) + 1 = occupied psl := by
  obtain ⟨hi, he⟩ := List.getElem?_eq_some.1 h
  have := countP_set_balance Option.isSome psl i none hi
  simp only [he, Option.isSome_none, Option.isSome_some] at this
  simpa [occupied] using this

theorem occupied_set_none_vacant {psl : List (Option Nat)} {i : Nat}
    (h : psl[i]? = some none) : occupied (psl.set i none) = occupied psl := by
  obtain ⟨hi, he⟩ := List.getElem?_eq_some.1 h
  have := countP_set_balance Option.isSome psl i none hi
  simp only [he, Option.isSome_none] at this
  simpa [occupied] using this

theorem occupied_le_length (psl : List (Option Nat)) : occupied psl ≤ psl.length :=
  List.countP_le_length _

/-- A vector with fewer occupied cells than cells has an `EMPTY` cell. -/
theorem exists_vacant {psl : List (Option Nat)} (h : occupied psl < psl.length) :
    ∃ i : Nat, psl[i]? = some none := by
  by_contra hne
  have hall : ∀ a ∈ psl, Option.isSome a = true := by
    intro a ha
    obtain ⟨i, hi, rfl⟩ := List.mem_iff_getElem.1 ha
    cases hv : psl[i] with
    | none =>
      exact absurd ⟨i, by rw [List.getElem?_eq_getElem hi, hv]⟩ hne
    | some p => rfl
  have := List.countP_eq_length.2 hall
  unfold occupied at h
  omega

/-! ## Consequences of the invariant -/

section InvariantLemmas

variable {K V : Type} {hash : K → Nat} {data : List (Option (K × V))} {psl : List (Option Nat)}

theorem Inv.node_of_psl (h : Inv hash data psl) {i p : Nat} (hp : psl[i]? = some (some p)) :
    ∃ x, data[i]? = some (some x) := by
  have hi : i < data.length := by
    have := (List.getElem?_eq_some.1 hp).1
    rw [h.len] at this
    exact this
  cases hd : data[i]? with
  | none =>
    have := List.getElem?_eq_none_iff.1 hd
    omega
  | some d =>
    cases d with
    | none =>
      have := (h.sync i).2 hd
      rw [hp] at this
      simp at this
    | some x => exact ⟨x, rfl⟩

theorem Inv.psl_of_node (h : Inv hash data psl) {i : Nat} {x : K × V}
    (hd : data[i]? = some (some x)) : ∃ p, psl[i]? = some (some p) := by
  have hi : i < psl.length := by
    have := (List.getElem?_eq_some.1 hd).1
    rw [← h.len] at this
    exact this
  cases hp : psl[i]? with
  | none =>
    have := List.getElem?_eq_none_iff.1 hp
    omega
  | some d =>
    cases d with
    | none =>
      have := (h.sync i).1 hp
      rw [hd] at this
      simp at this
    | some p => exact ⟨p, rfl⟩

theorem Inv.cell (h : Inv hash data psl) {i : Nat} (hi : i < data.length) :
    psl[i]? = some none ∨ ∃ p x, psl[i]? = some (some p) ∧ data[i]? = some (some x) := by
  have hi2 : i < psl.length := h.len ▸ hi
  cases hp : psl[i]? with
  | none =>
    have := List.getElem?_eq_none_iff.1 hp
    omega
  | some d =>
    cases d with
    | none => exact Or.inl rfl
    | some p =>
      obtain ⟨x, hx⟩ := h.node_of_psl hp
      exact Or.inr ⟨p, x, rfl, hx⟩

/-- Writing a node with probe length `c` into slot `index` keeps the invariant when `c` is
the distance from the node's home, the key occurs in no other slot, and `c` fits between
the probe lengths of the neighbouring slots. -/
theorem Inv.place (h : Inv hash data psl) {index c : Nat} {x : K × V}
    (hidx : index < data.length) (hc : c < data.length)
    (hhome : (hash x.1 + c) % data.length = index)
    (hfresh : ∀ (i : Nat) (y : K × V), data[i]? = some (some y) → y.1 = x.1 → i = index)
    (hprev : ∀ i : Nat, i < data.length → i ≠ index → advance i data.length = index →
      c = 0 ∨ ∃ p, psl[i]? = some (some p) ∧ c ≤ p + 1)
    (hnext : ∀ q : Nat, psl[advance index data.length]? = some (some q) → q = 0 ∨ q ≤ c + 1) :
    Inv hash (data.set index (some x)) (psl.set index (some c)) := by
  have hidx2 : index < psl.length := h.len ▸ hidx
  refine ⟨by simp [h.len], by simpa using h.pos, ?_, ?_, ?_, ?_⟩
  · intro i
    by_cases hi : index = i
    · subst hi
      rw [List.getElem?_set_self hidx2, List.getElem?_set_self hidx]
      simp
    · rw [List.getElem?_set_ne hi, List.getElem?_set_ne hi]
      exact h.sync i
  · intro i p y hp hy
    rw [List.length_set]
    by_cases hi : index = i
    · subst hi
      rw [List.getElem?_set_self hidx2] at hp
      rw [List.getElem?_set_self hidx] at hy
      cases hp
      cases hy
      exact ⟨hc, hhome⟩
    · rw [List.getElem?_set_ne hi] at hp
      rw [List.getElem?_set_ne hi] at hy
      exact h.home i p y hp hy
  · intro i hi q hq
    rw [List.length_set] at hi hq
    by_cases ha : index = advance i data.length
    · rw [← ha, List.getElem?_set_self hidx2] at hq
      cases hq
      by_cases hii : index = i
      · subst hii
        have := advance_fixed ha.symm
        left
        omega
      · rw [List.getElem?_set_ne hii]
        exact hprev i hi (fun e => hii e.symm) ha.symm
    · rw [List.getElem?_set_ne ha] at hq
      by_cases hii : index = i
      · subst hii
        rw [List.getElem?_set_self hidx2]
        rcases hnext q hq with h0 | h1
        · exact Or.inl h0
        · exact Or.inr ⟨c, rfl, h1⟩
      · rw [List.getElem?_set_ne hii]
        exact h.order i hi q hq
  · intro i j y z hy hz hyz
    by_cases hi : index = i
    · by_cases hj : index = j
      · rw [← hi, ← hj]
      · subst hi
        rw [List.getElem?_set_self hidx] at hy
        rw [List.getElem?_set_ne hj] at hz
        cases hy
        exact (hfresh j z hz hyz.symm).symm
    · by_cases hj : index = j
      · subst hj
        rw [List.getElem?_set_self hidx] at hz
        rw [List.getElem?_set_ne hi] at hy
        cases hz
        exact hfresh i y hy hyz
      · rw [List.getElem?_set_ne hi] at hy
        rw [List.getElem?_set_ne hj] at hz
        exact h.uniq i j y z hy hz hyz

end InvariantLemmas

/-! ## The probe loop of `insert` -/

section InsertLoop

variable {K V : Type} {hash : K → Nat}

theorem Carry.step {data : List (Option (K × V))} {psl : List (Option Nat)} {index c p : Nat}
    {x : K × V} (h : Carry hash data psl index c x) (hp : psl[index]? = some (some p))
    (hcp : c ≤ p) : Carry hash data psl (advance index data.length) (c + 1) x := by
  refine ⟨h.inv, advance_lt h.idx, home_advance h.inv.pos h.home, h.fresh, ?_⟩
  intro i _ _ ha
  have := advance_inj ha
  subst this
  exact Or.inr ⟨p, hp, by omega⟩

theorem Carry.swap {data : List (Option (K × V))} {psl : List (Option Nat)} {index c p : Nat}
    {x r : K × V} (h : Carry hash data psl index c x) (hp : psl[index]? = some (some p))
    (hd : data[index]? = some (some r)) (hpc : p < c) (hc : c < data.length) :
    Carry hash (data.set index (some x)) (psl.set index (some c))
      (advance index data.length) (p + 1) r := by
  have hidx2 : index < psl.length := h.inv.len ▸ h.idx
  have hinv : Inv hash (data.set index (some x)) (psl.set index (some c)) := by
    refine h.inv.place h.idx hc h.home (fun i y hy hyx => absurd hyx (h.fresh i y hy)) h.prev ?_
    intro q hq
    rcases h.inv.order index h.idx q hq with h0 | ⟨p1, hp1, hq1⟩
    · exact Or.inl h0
    · rw [hp] at hp1
      cases hp1
      right
      omega
  refine ⟨hinv, ?_, ?_, ?_, ?_⟩
  · rw [List.length_set]
    exact advance_lt h.idx
  · rw [List.length_set]
    exact home_advance h.inv.pos (h.inv.home index p r hp hd).2
  · intro i y hy hyr
    by_cases hi : index = i
    · subst hi
      rw [List.getElem?_set_self h.idx] at hy
      cases hy
      exact h.fresh index r hd hyr.symm
    · rw [List.getElem?_set_ne hi] at hy
      exact hi (h.inv.uniq i index y r hy hd hyr).symm
  · intro i _ _ ha
    rw [List.length_set] at ha
    have := advance_inj ha
    subst this
    rw [List.getElem?_set_self hidx2]
    exact Or.inr ⟨c, rfl, by omega⟩

variable [DecidableEq K]

/-- The exit of the probe loop of `insert` at an `EMPTY` cell. -/
theorem insertLoop_exit {data : List (Option (K × V))} {psl : List (Option Nat)}
    {index c : Nat} {x : K × V} (h : Carry hash data psl index c x)
    (he : psl[index]? = some none) (hc : c < data.length) (e : Nat) :
    ∃ data1 psl1 index1 c1 x1,
      (∀ fuel, e < fuel → insertLoop fuel data psl index c x =
        some (InsertExit.vacant data1 psl1 index1 c1 x1)) ∧
      Inv hash (data1.set index1 (some x1)) (psl1.set index1 (some c1)) ∧
      (∀ y, (∃ i : Nat, (data1.set index1 (some x1))[i]? = some (some y)) ↔
        ((∃ i : Nat, data[i]? = some (some y)) ∨ y = x)) ∧
      occupied (psl1.set index1 (some c1)) = occupied psl + 1 ∧
      data1.length = data.length := by
  refine ⟨data, psl, index, c, x, ?_, ?_, ?_, occupied_set_vacant he, rfl⟩
  · intro fuel hfuel
    obtain ⟨fuel, rfl⟩ : ∃ f, fuel = f + 1 := ⟨fuel - 1, by omega⟩
    simp [insertLoop, he]
  · refine h.inv.place h.idx hc h.home
      (fun i y hy hyx => absurd hyx (h.fresh i y hy)) h.prev ?_
    intro q hq
    rcases h.inv.order index h.idx q hq with h0 | ⟨p1, hp1, _⟩
    · exact Or.inl h0
    · rw [he] at hp1
      simp at hp1
  · intro y
    constructor
    · rintro ⟨i, hi⟩
      by_cases hii : index = i
      · subst hii
        rw [List.getElem?_set_self h.idx] at hi
        cases hi
        exact Or.inr rfl
      · rw [List.getElem?_set_ne hii] at hi
        exact Or.inl ⟨i, hi⟩
    · rintro (⟨i, hi⟩ | rfl)
      · have hii : index ≠ i := by
          rintro rfl
          rw [(h.inv.sync index).1 he] at hi
          simp at hi
        exact ⟨i, by rw [List.getElem?_set_ne hii]; exact hi⟩
      · exact ⟨index, List.getElem?_set_self h.idx⟩

/-- On vectors satisfying the loop invariant and with an `EMPTY` cell `e` steps ahead, the
probe loop of `insert` leaves through its loop condition within `e + 1` iterations, and writing
the carried node into the slot it stopped at gives vectors that satisfy the class invariant,
hold the former nodes and the new one, and have one more occupied cell. -/
theorem insertLoop_spec : ∀ (e : Nat) (data : List (Option (K × V))) (psl : List (Option Nat))
    (index c : Nat) (x : K × V), Carry hash data psl index c x →
    psl[(index + e) % data.length]? = some none → c + e < data.length →
    ∃ data1 psl1 index1 c1 x1,
      (∀ fuel, e < fuel →
        insertLoop fuel data psl index c x = some (InsertExit.vacant data1 psl1 index1 c1 x1)) ∧
      Inv hash (data1.set index1 (some x1)) (psl1.set index1 (some c1)) ∧
      (∀ y, (∃ i : Nat, (data1.set index1 (some x1))[i]? = some (some y)) ↔
        ((∃ i : Nat, data[i]? = some (some y)) ∨ y = x)) ∧
      occupied (psl1.set index1 (some c1)) = occupied psl + 1 ∧
      data1.length = data.length := by
  intro e
  induction e with
  | zero =>
    intro data psl index c x h he hce
    rw [Nat.add_zero, Nat.mod_eq_of_lt h.idx] at he
    exact insertLoop_exit h he (by omega) 0
  | succ e ih =>
    intro data psl index c x h he hce
    rcases h.inv.cell h.idx with hv | ⟨p, r, hp, hd⟩
    · exact insertLoop_exit h hv (by omega) (e + 1)
    · have hne : (index + (e + 1)) % data.length ≠ index :=
        add_mod_ne_self h.idx (by omega) (by omega)
      by_cases hpc : p < c
      · have hcarry := h.swap hp hd hpc (by omega)
        have he1 : (psl.set index (some c))[(advance index data.length + e) %
            (data.set index (some x)).length]? = some none := by
          rw [List.length_set, advance_add_mod h.idx, List.getElem?_set_ne (Ne.symm hne)]
          exact he
        obtain ⟨data1, psl1, index1, c1, x1, hrun, hinv, hmem, hocc, hlen⟩ :=
          ih _ _ _ _ _ hcarry he1 (by rw [List.length_set]; omega)
        refine ⟨data1, psl1, index1, c1, x1, ?_, hinv, ?_, ?_, ?_⟩
        · intro fuel hfuel
          obtain ⟨fuel, rfl⟩ : ∃ f, fuel = f + 1 := ⟨fuel - 1, by omega⟩
          rw [insertLoop]
          simp only [hp, hd, hpc, if_true]
          exact hrun fuel (by omega)
        · intro y
          rw [hmem y]
          constructor
          · rintro (⟨i, hi⟩ | rfl)
            · by_cases hii : index = i
              · subst hii
                rw [List.getElem?_set_self h.idx] at hi
                cases hi
                exact Or.inr rfl
              · rw [List.getElem?_set_ne hii] at hi
                exact Or.inl ⟨i, hi⟩
            · exact Or.inl ⟨index, hd⟩
          · rintro (⟨i, hi⟩ | rfl)
            · by_cases hii : index = i
              · subst hii
                rw [hd] at hi
                cases hi
                exact Or.inr rfl
              · exact Or.inl ⟨i, by rw [List.getElem?_set_ne hii]; exact hi⟩
            · exact Or.inl ⟨index, List.getElem?_set_self h.idx⟩
        · rw [hocc, occupied_set_taken hp]
        · rw [hlen, List.length_set]
      · have hcarry := h.step hp (by omega)
        have he1 : psl[(advance index data.length + e) % data.length]? = some none := by
          rw [advance_add_mod h.idx]
          exact he
        obtain ⟨data1, psl1, index1, c1, x1, hrun, hrest⟩ :=
          ih _ _ _ _ _ hcarry he1 (by omega)
        refine ⟨data1, psl1, index1, c1, x1, ?_, hrest⟩
        intro fuel hfuel
        obtain ⟨fuel, rfl⟩ : ∃ f, fuel = f + 1 := ⟨fuel - 1, by omega⟩
        rw [insertLoop]
        simp only [hp, hd, hpc, if_false]
        have hkey : ¬ r.1 = x.1 := h.fresh index r hd
        simp only [hkey, if_false]
        split <;> exact hrun fuel (by omega)

/-- Every slot is reached from every slot by advancing fewer than `n` times. -/
theorem exists_distance {i0 index n : Nat} (hi : i0 < n) (hidx : index < n) :
    ∃ e, e < n ∧ (index + e) % n = i0 := by
  refine ⟨(i0 + n - index) % n, Nat.mod_lt _ (by omega), ?_⟩
  rw [Nat.add_mod_mod]
  have : index + (i0 + n - index) = i0 + n := by omega
  rw [this, Nat.add_mod_right, Nat.mod_eq_of_lt hi]

/-- The probe loop of `insert` for a key that is in no slot, on vectors with a vacant cell. -/
theorem insertLoop_fresh {data : List (Option (K × V))} {psl : List (Option Nat)} {x : K × V}
    (hinv : Inv hash data psl) (hfresh : ∀ (i : Nat) (y : K × V), data[i]? = some (some y) →
      y.1 ≠ x.1) (hroom : occupied psl < data.length) :
    ∃ data1 psl1 index1 c1 x1,
      (∀ fuel, data.length ≤ fuel → insertLoop fuel data psl (hash x.1 % data.length) 0 x =
        some (InsertExit.vacant data1 psl1 index1 c1 x1)) ∧
      Inv hash (data1.set index1 (some x1)) (psl1.set index1 (some c1)) ∧
      (∀ y, (∃ i : Nat, (data1.set index1 (some x1))[i]? = some (some y)) ↔
        ((∃ i : Nat, data[i]? = some (some y)) ∨ y = x)) ∧
      occupied (psl1.set index1 (some c1)) = occupied psl + 1 ∧
      data1.length = data.length := by
  have hidx : hash x.1 % data.length < data.length := Nat.mod_lt _ hinv.pos
  obtain ⟨i0, hi0⟩ := exists_vacant (hinv.len ▸ hroom)
  have hi0lt : i0 < data.length := hinv.len ▸ (List.getElem?_eq_some.1 hi0).1
  obtain ⟨e, he, hmod⟩ := exists_distance hi0lt hidx
  have hcarry : Carry hash data psl (hash x.1 % data.length) 0 x :=
    ⟨hinv, hidx, by simp, hfresh, fun _ _ _ _ => Or.inl rfl⟩
  obtain ⟨data1, psl1, index1, c1, x1, hrun, hrest⟩ :=
    insertLoop_spec e data psl _ 0 x hcarry (by rw [hmod]; exact hi0) (by omega)
  exact ⟨data1, psl1, index1, c1, x1, fun fuel hfuel => hrun fuel (by omega), hrest⟩

end InsertLoop

/-! ## `insert(Node*)` and `rebuild` -/

section InsertNode

variable {K V : Type} {hash : K → Nat}

theorem getElem?_replicate_none_ne {α : Type} {n i : Nat} {a : α} :
    (List.replicate n (none : Option α))[i]? ≠ some (some a) := by
  rw [List.getElem?_replicate]
  split <;> simp

/-- The all-vacant vectors that `rebuild` and `clear` assign satisfy the invariant. -/
theorem Inv.replicate (hash : K → Nat) {n : Nat} (hn : 0 < n) :
    Inv hash (List.replicate n (none : Option (K × V))) (List.replicate n none) := by
  refine ⟨by simp, by simpa using hn, ?_, ?_, ?_, ?_⟩
  · intro i
    simp only [List.getElem?_replicate]
    split <;> simp
  · intro i p x hp
    exact absurd hp getElem?_replicate_none_ne
  · intro i _ q hq
    exact absurd hq getElem?_replicate_none_ne
  · intro i j x y hx
    exact absurd hx getElem?_replicate_none_ne

theorem occupied_replicate (n : Nat) : occupied (List.replicate n none) = 0 := by
  simp [occupied, List.countP_replicate]

/-- The doubling loop of `rebuild` terminates on a non-zero capacity, at a capacity that is
not overloaded. -/
theorem growLoop_spec (size : Nat) : ∀ (m capacity : Nat), 0 < capacity →
    5 * size ≤ 3 * capacity + m →
    ∃ capacity1, (∀ fuel, m < fuel → growLoop fuel capacity size = some capacity1) ∧
      5 * size ≤ 3 * capacity1 ∧ capacity ≤ capacity1 := by
  intro m
  induction m with
  | zero =>
    intro capacity _ h
    refine ⟨capacity, ?_, by omega, le_refl _⟩
    intro fuel hfuel
    obtain ⟨fuel, rfl⟩ : ∃ f, fuel = f + 1 := ⟨fuel - 1, by omega⟩
    have : ¬ 3 * capacity < 5 * size := by omega
    simp [growLoop, overloaded, this]
  | succ m ih =>
    intro capacity hpos h
    by_cases hover : 3 * capacity < 5 * size
    · obtain ⟨capacity1, hrun, hfit, hle⟩ := ih (2 * capacity) (by omega) (by omega)
      refine ⟨capacity1, ?_, hfit, by omega⟩
      intro fuel hfuel
      obtain ⟨fuel, rfl⟩ : ∃ f, fuel = f + 1 := ⟨fuel - 1, by omega⟩
      simp only [growLoop, overloaded, hover, decide_True, if_true]
      exact hrun fuel (by omega)
    · refine ⟨capacity, ?_, by omega, le_refl _⟩
      intro fuel hfuel
      obtain ⟨fuel, rfl⟩ : ∃ f, fuel = f + 1 := ⟨fuel - 1, by omega⟩
      simp [growLoop, overloaded, hover]

variable [DecidableEq K]

/-- The private `insert` of a key that is in no slot, when the table stays within the load
bound: the node is added and the capacity is unchanged. -/
theorem insertNode_fits {t : Table K V} {x : K × V} (hinv : Inv hash t.data_ t.psl_)
    (hcount : t.size_ = occupied t.psl_)
    (hfresh : ∀ (i : Nat) (y : K × V), t.data_[i]? = some (some y) → y.1 ≠ x.1)
    (hfit : 5 * (t.size_ + 1) ≤ 3 * t.data_.length) :
    ∃ t1, (∀ fuel, t.data_.length < fuel → insertNode hash fuel t x = some t1) ∧
      Added hash t x t1 ∧ t1.data_.length = t.data_.length := by
  obtain ⟨data1, psl1, index1, c1, x1, hrun, hinv1, hmem, hocc, hlen⟩ :=
    insertLoop_fresh hinv hfresh (by omega)
  refine ⟨⟨data1.set index1 (some x1), psl1.set index1 (some c1), t.size_ + 1⟩, ?_,
    ⟨hinv1, by simp only [hocc, hcount], rfl, hmem⟩, by simp [hlen]⟩
  intro fuel hfuel
  obtain ⟨fuel, rfl⟩ : ∃ f, fuel = f + 1 := ⟨fuel - 1, by omega⟩
  have hno : ¬ 3 * data1.length < 5 * (t.size_ + 1) := by omega
  simp [insertNode, hrun fuel (by omega), overloaded, hno]

theorem exists_getElem?_cons {α : Type} (d : Option α) (ds : List (Option α)) (y : α) :
    (∃ i : Nat, (d :: ds)[i]? = some (some y)) ↔ (d = some y ∨ ∃ i : Nat, ds[i]? = some (some y)) := by
  constructor
  · rintro ⟨i, hi⟩
    cases i with
    | zero => exact Or.inl (by simpa using hi)
    | succ i => exact Or.inr ⟨i, by simpa using hi⟩
  · rintro (rfl | ⟨i, hi⟩)
    · exact ⟨0, by simp⟩
    · exact ⟨i + 1, by simpa using hi⟩

/-- The re-insertion loop of `rebuild`: when the clone vectors are in step, their keys are
pairwise distinct and in no slot of the table, and the table has room for all of them within
the load bound, every node of the clone is added and no nested `rebuild` happens. -/
theorem reinsertAll_spec : ∀ (ps : List (Option Nat)) (ds : List (Option (K × V)))
    (t : Table K V), Inv hash t.data_ t.psl_ → t.size_ = occupied t.psl_ →
    ps.length = ds.length →
    (∀ i : Nat, ps[i]? = some none ↔ ds[i]? = some none) →
    (∀ (i j : Nat) (y z : K × V), ds[i]? = some (some y) → ds[j]? = some (some z) →
      y.1 = z.1 → i = j) →
    (∀ (i j : Nat) (y z : K × V), t.data_[i]? = some (some y) → ds[j]? = some (some z) →
      y.1 ≠ z.1) →
    5 * (t.size_ + occupied ps) ≤ 3 * t.data_.length →
    ∃ t1, (∀ fuel, t.data_.length < fuel →
        reinsertAll (insertNode hash fuel) ps ds t = some t1) ∧
      Inv hash t1.data_ t1.psl_ ∧ t1.size_ = occupied t1.psl_ ∧
      t1.size_ = t.size_ + occupied ps ∧
      (∀ y, (∃ i : Nat, t1.data_[i]? = some (some y)) ↔
        ((∃ i : Nat, t.data_[i]? = some (some y)) ∨ ∃ i : Nat, ds[i]? = some (some y))) ∧
      t1.data_.length = t.data_.length := by
  intro ps
  induction ps with
  | nil =>
    intro ds t hinv hcount hlen _ _ _ _
    have hds : ds = [] := List.length_eq_zero.1 hlen.symm
    subst hds
    refine ⟨t, fun fuel _ => by simp [reinsertAll], hinv, hcount, by simp [occupied], ?_, rfl⟩
    intro y
    simp
  | cons p ps ih =>
    intro ds t hinv hcount hlen hsync huniq hfresh hload
    cases ds with
    | nil => simp at hlen
    | cons d ds =>
      have hlen1 : ps.length = ds.length := by simpa using hlen
      have hsync1 : ∀ i : Nat, ps[i]? = some none ↔ ds[i]? = some none := fun i => by
        simpa using hsync (i + 1)
      have huniq1 : ∀ (i j : Nat) (y z : K × V), ds[i]? = some (some y) →
          ds[j]? = some (some z) → y.1 = z.1 → i = j := fun i j y z hy hz hyz => by
        have := huniq (i + 1) (j + 1) y z (by simpa using hy) (by simpa using hz) hyz
        omega
      cases p with
      | none =>
        have hd : d = none := by simpa using (hsync 0).1 (by simp)
        subst hd
        obtain ⟨t1, hrun, hinv1, hcount1, hsize1, hmem1, hlen2⟩ :=
          ih ds t hinv hcount hlen1 hsync1 huniq1
            (fun i j y z hy hz => hfresh i (j + 1) y z hy (by simpa using hz))
            (by simpa [occupied] using hload)
        refine ⟨t1, fun fuel hfuel => by simpa [reinsertAll] using hrun fuel hfuel, hinv1,
          hcount1, by simpa [occupied] using hsize1, ?_, hlen2⟩
        intro y
        rw [hmem1 y, exists_getElem?_cons]
        simp
      | some q =>
        cases d with
        | none =>
          have := (hsync 0).2 (by simp)
          simp at this
        | some node =>
          have hocc : occupied (some q :: ps) = occupied ps + 1 := by simp [occupied]
          obtain ⟨t0, hrun0, hadd, hlen0⟩ := insertNode_fits (x := node) hinv hcount
            (fun i y hy => hfresh i 0 y node hy (by simp)) (by omega)
          have hfresh1 : ∀ (i j : Nat) (y z : K × V), t0.data_[i]? = some (some y) →
              ds[j]? = some (some z) → y.1 ≠ z.1 := by
            intro i j y z hy hz
            rcases (hadd.mem y).1 ⟨i, hy⟩ with ⟨i1, hi1⟩ | rfl
            · exact hfresh i1 (j + 1) y z hi1 (by simpa using hz)
            · intro hyz
              have := huniq 0 (j + 1) y z (by simp) (by simpa using hz) hyz
              omega
          obtain ⟨t1, hrun, hinv1, hcount1, hsize1, hmem1, hlen2⟩ :=
            ih ds t0 hadd.inv hadd.count hlen1 hsync1 huniq1 hfresh1
              (by rw [hadd.size, hlen0]; omega)
          refine ⟨t1, ?_, hinv1, hcount1, by rw [hsize1, hadd.size]; omega, ?_,
            by rw [hlen2, hlen0]⟩
          · intro fuel hfuel
            simp only [reinsertAll, hrun0 fuel hfuel, Option.some_bind]
            exact hrun fuel (by omega)
          · intro y
            rw [hmem1 y, hadd.mem y, exists_getElem?_cons]
            constructor
            · rintro ((h | rfl) | h)
              · exact Or.inl h
              · exact Or.inr (Or.inl rfl)
              · exact Or.inr (Or.inr h)
            · rintro (h | h | h)
              · exact Or.inl (Or.inl h)
              · exact Or.inl (Or.inr (by simpa using h.symm))
              · exact Or.inr h

/-- The private `insert` of a key that is in no slot of a well-formed table terminates, with
or without `rebuild`; the result is well formed, holds the former nodes and the new one, and
its capacity has not shrunk. -/
theorem insertNode_fresh {t : Table K V} {x : K × V} (hwf : WF hash t)
    (hfresh : ∀ (i : Nat) (y : K × V), t.data_[i]? = some (some y) → y.1 ≠ x.1) :
    ∃ t1, Returns (fun fuel => insertNode hash fuel t x) t1 ∧ Added hash t x t1 ∧
      5 * t1.size_ ≤ 3 * t1.data_.length ∧ t.data_.length ≤ t1.data_.length := by
  have hpos := hwf.inv.pos
  have hroom : occupied t.psl_ < t.data_.length := by
    have := hwf.load
    rw [← hwf.count]
    omega
  obtain ⟨data1, psl1, index1, c1, x1, hrun, hinv1, hmem, hocc, hlen⟩ :=
    insertLoop_fresh hwf.inv hfresh hroom
  by_cases hover : 3 * data1.length < 5 * (t.size_ + 1)
  · obtain ⟨capacity1, hgrow, hfit, hle⟩ :=
      growLoop_spec (t.size_ + 1) (5 * (t.size_ + 1)) data1.length (by omega) (by omega)
    obtain ⟨t1, hre, hinv2, hcount2, hsize2, hmem2, hlen2⟩ :=
      reinsertAll_spec (psl1.set index1 (some c1)) (data1.set index1 (some x1))
        ⟨List.replicate capacity1 none, List.replicate capacity1 none, 0⟩
        (Inv.replicate hash (by omega)) (occupied_replicate capacity1).symm hinv1.len
        hinv1.sync hinv1.uniq
        (fun i j y z hy => absurd hy getElem?_replicate_none_ne)
        (by simp only [hocc, ← hwf.count, List.length_replicate]; omega)
    refine ⟨t1, ⟨t.data_.length + 5 * (t.size_ + 1) + capacity1 + 2, ?_⟩,
      ⟨hinv2, hcount2, by rw [hsize2, hocc, hwf.count]; simp, ?_⟩, ?_, ?_⟩
    · intro fuel hfuel
      obtain ⟨fuel, rfl⟩ : ∃ f, fuel = f + 1 := ⟨fuel - 1, by omega⟩
      have h1 := hgrow fuel (by omega)
      have h2 := hre fuel (by simp only [List.length_replicate]; omega)
      simp only [List.length_set] at h1
      simp [insertNode, hrun fuel (by omega), overloaded, hover, rebuildWith, h1, h2]
    · intro y
      rw [hmem2 y, ← hmem y]
      constructor
      · rintro (⟨i, hi⟩ | h)
        · exact absurd hi getElem?_replicate_none_ne
        · exact h
      · exact Or.inr
    · rw [hsize2, hocc, ← hwf.count, hlen2]
      simp only [List.length_replicate]
      omega
    · rw [hlen2]
      simp only [List.length_replicate]
      omega
  · refine ⟨⟨data1.set index1 (some x1), psl1.set index1 (some c1), t.size_ + 1⟩,
      ⟨t.data_.length + 1, ?_⟩, ⟨hinv1, by simp only [hocc, hwf.count], rfl, hmem⟩,
      by simp only [List.length_set]; omega, by simp [hlen]⟩
    intro fuel hfuel
    obtain ⟨fuel, rfl⟩ : ∃ f, fuel = f + 1 := ⟨fuel - 1, by omega⟩
    simp [insertNode, hrun fuel (by omega), overloaded, hover]

end InsertNode

/-! ## Probing for a key: `find`, duplicate `insert` -/

section Probe

variable {K V : Type} {hash : K → Nat} {data : List (Option (K × V))} {psl : List (Option Nat)}

/-- Robin Hood order along a probe sequence: when the slot `m` steps after `a` has a probe
length of at least `m`, every slot `d ≤ m` steps after `a` is occupied with a probe length of
at least `d`. -/
theorem Inv.chain (h : Inv hash data psl) (a : Nat) : ∀ (m q : Nat),
    psl[(a + m) % data.length]? = some (some q) → m ≤ q →
    ∀ d, d ≤ m → ∃ p, psl[(a + d) % data.length]? = some (some p) ∧ d ≤ p := by
  intro m
  induction m with
  | zero =>
    intro q hq _ d hd
    have : d = 0 := by omega
    subst this
    exact ⟨q, hq, Nat.zero_le _⟩
  | succ m ih =>
    intro q hq hmq d hd
    by_cases hdm : d = m + 1
    · subst hdm
      exact ⟨q, hq, hmq⟩
    · have hlt : (a + m) % data.length < data.length := Nat.mod_lt _ h.pos
      have hadv : advance ((a + m) % data.length) data.length = (a + (m + 1)) % data.length :=
        (home_advance h.pos rfl).symm
      rcases h.order _ hlt q (by rw [hadv]; exact hq) with h0 | ⟨p1, hp1, hq1⟩
      · omega
      · exact ih p1 hp1 (by omega) d (by omega)

variable [DecidableEq K]

/-- The probe loop of `find` reaches the slot of a stored key. -/
theorem findLoop_stored (h : Inv hash data psl) {i0 q : Nat} {x : K × V}
    (hp : psl[i0]? = some (some q)) (hd : data[i0]? = some (some x)) :
    ∀ (k d : Nat), d + k = q → ∀ fuel, k < fuel →
      findLoop fuel data psl x.1 ((hash x.1 + d) % data.length) d = some (some i0) := by
  have hhome := (h.home i0 q x hp hd).2
  intro k
  induction k with
  | zero =>
    intro d hdk fuel hfuel
    obtain ⟨fuel, rfl⟩ : ∃ f, fuel = f + 1 := ⟨fuel - 1, by omega⟩
    have : d = q := by omega
    subst this
    rw [hhome]
    simp [findLoop, hp, hd]
  | succ k ih =>
    intro d hdk fuel hfuel
    obtain ⟨fuel, rfl⟩ : ∃ f, fuel = f + 1 := ⟨fuel - 1, by omega⟩
    obtain ⟨p, hp1, hdp⟩ := h.chain (hash x.1) q q (by rw [hhome]; exact hp) (le_refl _) d
      (by omega)
    obtain ⟨r, hr⟩ := h.node_of_psl hp1
    have hnext := ih (d + 1) (by omega) fuel (by omega)
    rw [home_advance h.pos rfl] at hnext
    rw [findLoop]
    simp only [hp1, hdp, if_true, hr]
    by_cases hpd : p = d
    · simp only [hpd, if_true]
      by_cases hkey : r.1 = x.1
      · simp only [hkey, if_true]
        rw [h.uniq _ i0 r x hr hd hkey]
      · simp only [hkey, if_false]
        exact hnext
    · simp only [hpd, if_false]
      exact hnext

/-- The probe loop of `find` leaves through its loop condition when the key is in no slot. -/
theorem findLoop_absent (h : Inv hash data psl) (key : K)
    (habs : ∀ (i : Nat) (y : K × V), data[i]? = some (some y) → y.1 ≠ key) :
    ∀ (k d index : Nat), index < data.length → d + k = data.length → ∀ fuel, k < fuel →
      findLoop fuel data psl key index d = some none := by
  intro k
  induction k with
  | zero =>
    intro d index hidx hdk fuel hfuel
    obtain ⟨fuel, rfl⟩ : ∃ f, fuel = f + 1 := ⟨fuel - 1, by omega⟩
    rcases h.cell hidx with hv | ⟨p, r, hp, hr⟩
    · simp [findLoop, hv]
    · have hpn := (h.home index p r hp hr).1
      have : ¬ d ≤ p := by omega
      simp [findLoop, hp, this]
  | succ k ih =>
    intro d index hidx hdk fuel hfuel
    obtain ⟨fuel, rfl⟩ : ∃ f, fuel = f + 1 := ⟨fuel - 1, by omega⟩
    rcases h.cell hidx with hv | ⟨p, r, hp, hr⟩
    · simp [findLoop, hv]
    · have hnext := ih (d + 1) (advance index data.length) (advance_lt hidx) (by omega) fuel
        (by omega)
      have hkey : ¬ r.1 = key := habs index r hr
      rw [findLoop]
      simp only [hp, hr, hkey, if_false, hnext]
      split <;> [split <;> rfl; rfl]

/-- The probe loop of `insert` returns through the duplicate branch, with both vectors
untouched, when the key of the node is stored. -/
theorem insertLoop_duplicate (h : Inv hash data psl) {i0 q : Nat} {x : K × V} (v : V)
    (hp : psl[i0]? = some (some q)) (hd : data[i0]? = some (some x)) :
    ∀ (k d : Nat), d + k = q → ∀ fuel, k < fuel →
      insertLoop fuel data psl ((hash x.1 + d) % data.length) d (x.1, v) =
        some (InsertExit.duplicate data psl) := by
  have hhome := (h.home i0 q x hp hd).2
  intro k
  induction k with
  | zero =>
    intro d hdk fuel hfuel
    obtain ⟨fuel, rfl⟩ : ∃ f, fuel = f + 1 := ⟨fuel - 1, by omega⟩
    have : d = q := by omega
    subst this
    rw [hhome]
    simp [insertLoop, hp, hd]
  | succ k ih =>
    intro d hdk fuel hfuel
    obtain ⟨fuel, rfl⟩ : ∃ f, fuel = f + 1 := ⟨fuel - 1, by omega⟩
    obtain ⟨p, hp1, hdp⟩ := h.chain (hash x.1) q q (by rw [hhome]; exact hp) (le_refl _) d
      (by omega)
    obtain ⟨r, hr⟩ := h.node_of_psl hp1
    have hnext := ih (d + 1) (by omega) fuel (by omega)
    rw [home_advance h.pos rfl] at hnext
    have hnlt : ¬ p < d := by omega
    rw [insertLoop]
    simp only [hp1, hnlt, if_false, hr]
    by_cases hpd : p = d
    · simp only [hpd, if_true]
      by_cases hkey : r.1 = x.1
      · simp only [hkey, if_true]
      · simp only [hkey, if_false]
        exact hnext
    · simp only [hpd, if_false]
      exact hnext

end Probe

/-! ## The backward shift of `erase` -/

section Shift

variable {K V : Type} {hash : K → Nat}

theorem set_eq_self {α : Type} {l : List α} {i : Nat} {a : α} (h : l[i]? = some a) :
    l.set i a = l := by
  apply List.ext_getElem?
  intro j
  by_cases hij : i = j
  · subst hij
    rw [List.getElem?_set_self (List.getElem?_eq_some.1 h).1, h]
  · rw [List.getElem?_set_ne hij]

/-- Lowering the probe length of one slot keeps the order when the next slot allows it. -/
theorem Ordered.lower {n : Nat} {psl : List (Option Nat)} {index a b : Nat}
    (h : Ordered n (psl.set index (some a))) (hidx : index < psl.length) (hba : b ≤ a)
    (hnext : ∀ q : Nat, advance index n ≠ index → psl[advance index n]? = some (some q) →
      q = 0 ∨ q ≤ b + 1) :
    Ordered n (psl.set index (some b)) := by
  intro i hi q hq
  by_cases ha : index = advance i n
  · rw [← ha, List.getElem?_set_self hidx] at hq
    cases hq
    by_cases hii : index = i
    · subst hii
      rw [List.getElem?_set_self hidx]
      exact Or.inr ⟨b, rfl, by omega⟩
    · rw [List.getElem?_set_ne hii]
      rcases h i hi a (by rw [← ha, List.getElem?_set_self hidx]) with h0 | ⟨p, hp, hap⟩
      · left
        omega
      · rw [List.getElem?_set_ne hii] at hp
        exact Or.inr ⟨p, hp, by omega⟩
  · rw [List.getElem?_set_ne ha] at hq
    by_cases hii : index = i
    · subst hii
      rw [List.getElem?_set_self hidx]
      rcases hnext q (fun e => ha e.symm) hq with h0 | h1
      · exact Or.inl h0
      · exact Or.inr ⟨b, rfl, h1⟩
    · rw [List.getElem?_set_ne hii]
      have := h i hi q (by rw [List.getElem?_set_ne ha]; exact hq)
      rw [List.getElem?_set_ne hii] at this
      exact this

theorem home_retreat {h q n index : Nat} (hidx : index < n) (hq : q ≠ 0)
    (e : (h + q) % n = advance index n) : (h + (q - 1)) % n = index := by
  rw [advance_eq_mod hidx] at e
  have h1 : (h + (q - 1) + 1) % n = (index + 1) % n := by
    rw [← e]
    congr 1
    omega
  have h2 : (h + (q - 1)) % n = index % n := Nat.ModEq.add_right_cancel' 1 h1
  rw [h2, Nat.mod_eq_of_lt hidx]

/-- Vacating an occupied slot of vectors that satisfy the class invariant gives the loop
invariant of `shiftLoop` at that slot. -/
theorem Inv.hole {data : List (Option (K × V))} {psl : List (Option Nat)}
    (h : Inv hash data psl) {i0 q0 : Nat} (hp : psl[i0]? = some (some q0)) :
    Hole hash (data.set i0 none) (psl.set i0 none) i0 := by
  have hi0 : i0 < psl.length := (List.getElem?_eq_some.1 hp).1
  refine ⟨by simp [h.len], by simpa [← h.len] using hi0, ?_, ?_, ⟨q0, ?_⟩, ?_⟩
  · intro i hi
    rw [List.getElem?_set_ne (Ne.symm hi), List.getElem?_set_ne (Ne.symm hi)]
    exact h.sync i
  · intro i p x hi hp1 hx
    rw [List.getElem?_set_ne (Ne.symm hi)] at hp1 hx
    rw [List.length_set]
    exact h.home i p x hp1 hx
  · rw [List.set_set, set_eq_self hp, List.length_set]
    exact h.order
  · intro i j x y hi hj hx hy
    rw [List.getElem?_set_ne (Ne.symm hi)] at hx
    rw [List.getElem?_set_ne (Ne.symm hj)] at hy
    exact h.uniq i j x y hx hy

/-- When the slot after the hole is vacant or at home, marking the hole vacant restores the
class invariant. -/
theorem Hole.close {data : List (Option (K × V))} {psl : List (Option Nat)} {index : Nat}
    (h : Hole hash data psl index)
    (hstop : psl[advance index data.length]? = some none ∨
      psl[advance index data.length]? = some (some 0)) :
    Inv hash (data.set index none) (psl.set index none) := by
  have hidx2 : index < psl.length := h.len ▸ h.idx
  obtain ⟨p0, hord⟩ := h.order
  refine ⟨by simp [h.len], by simpa using Nat.lt_of_le_of_lt (Nat.zero_le _) h.idx,
    ?_, ?_, ?_, ?_⟩
  · intro i
    by_cases hi : index = i
    · subst hi
      rw [List.getElem?_set_self hidx2, List.getElem?_set_self h.idx]
      simp
    · rw [List.getElem?_set_ne hi, List.getElem?_set_ne hi]
      exact h.sync i (Ne.symm hi)
  · intro i p x hp hx
    by_cases hi : index = i
    · subst hi
      rw [List.getElem?_set_self hidx2] at hp
      simp at hp
    · rw [List.getElem?_set_ne hi] at hp hx
      rw [List.length_set]
      exact h.home i p x (Ne.symm hi) hp hx
  · intro i hi q hq
    rw [List.length_set] at hi hq
    by_cases ha : index = advance i data.length
    · rw [← ha, List.getElem?_set_self hidx2] at hq
      simp at hq
    · rw [List.getElem?_set_ne ha] at hq
      by_cases hii : index = i
      · subst hii
        rcases hstop with h1 | h1
        · rw [h1] at hq
          simp at hq
        · rw [h1] at hq
          cases hq
          exact Or.inl rfl
      · rw [List.getElem?_set_ne hii]
        have := hord i hi q (by rw [List.getElem?_set_ne ha]; exact hq)
        rw [List.getElem?_set_ne hii] at this
        exact this
  · intro i j x y hx hy
    by_cases hi : index = i
    · subst hi
      rw [List.getElem?_set_self h.idx] at hx
      simp at hx
    · by_cases hj : index = j
      · subst hj
        rw [List.getElem?_set_self h.idx] at hy
        simp at hy
      · rw [List.getElem?_set_ne hi] at hx
        rw [List.getElem?_set_ne hj] at hy
        exact h.uniq i j x y (Ne.symm hi) (Ne.symm hj) hx hy

/-- One iteration of `shiftLoop`: the node after the hole moves into the hole with its probe
length decreased by one, and its former slot becomes the hole. -/
theorem Hole.shift {data : List (Option (K × V))} {psl : List (Option Nat)} {index q : Nat}
    {r : K × V} (h : Hole hash data psl index) (hne : advance index data.length ≠ index)
    (hq : psl[advance index data.length]? = some (some q)) (hq0 : q ≠ 0)
    (hr : data[advance index data.length]? = some (some r)) :
    Hole hash (data.set index (some r)) (psl.set index (some (q - 1)))
      (advance index data.length) := by
  have hidx2 : index < psl.length := h.len ▸ h.idx
  obtain ⟨p0, hord⟩ := h.order
  have hhome := h.home _ q r hne hq hr
  have hqp : q ≤ p0 + 1 := by
    rcases hord index h.idx q (by rw [List.getElem?_set_ne (Ne.symm hne)]; exact hq) with
      h0 | ⟨p, hp, hqp⟩
    · exact absurd h0 hq0
    · rw [List.getElem?_set_self hidx2] at hp
      cases hp
      exact hqp
  refine ⟨by simp [h.len], by simpa using advance_lt h.idx, ?_, ?_, ⟨q, ?_⟩, ?_⟩
  · intro i hi
    by_cases hii : index = i
    · subst hii
      rw [List.getElem?_set_self hidx2, List.getElem?_set_self h.idx]
      simp
    · rw [List.getElem?_set_ne hii, List.getElem?_set_ne hii]
      exact h.sync i (Ne.symm hii)
  · intro i p x hi hp hx
    rw [List.length_set]
    by_cases hii : index = i
    · subst hii
      rw [List.getElem?_set_self hidx2] at hp
      rw [List.getElem?_set_self h.idx] at hx
      cases hp
      cases hx
      exact ⟨by omega, home_retreat h.idx hq0 hhome.2⟩
    · rw [List.getElem?_set_ne hii] at hp hx
      exact h.home i p x (Ne.symm hii) hp hx
  · rw [List.length_set]
    have hself : (psl.set index (some (q - 1)))[advance index data.length]? = some (some q) := by
      rw [List.getElem?_set_ne (Ne.symm hne)]
      exact hq
    rw [set_eq_self hself]
    refine hord.lower hidx2 (by omega) ?_
    intro q1 _ hq1
    rw [hq] at hq1
    cases hq1
    right
    omega
  · intro i j x y hi hj hx hy hxy
    by_cases hii : index = i
    · by_cases hjj : index = j
      · rw [← hii, ← hjj]
      · subst hii
        rw [List.getElem?_set_self h.idx] at hx
        rw [List.getElem?_set_ne hjj] at hy
        cases hx
        exact absurd (h.uniq _ j _ y hne (Ne.symm hjj) hr hy hxy).symm hj
    · by_cases hjj : index = j
      · subst hjj
        rw [List.getElem?_set_self h.idx] at hy
        rw [List.getElem?_set_ne hii] at hx
        cases hy
        exact absurd (h.uniq i _ x _ (Ne.symm hii) hne hx hr hxy) hi
      · rw [List.getElem?_set_ne hii] at hx
        rw [List.getElem?_set_ne hjj] at hy
        exact h.uniq i j x y (Ne.symm hii) (Ne.symm hjj) hx hy hxy

theorem exists_set_none_iff {data : List (Option (K × V))} {index : Nat} (y : K × V) :
    (∃ i : Nat, (data.set index none)[i]? = some (some y)) ↔
      ∃ i : Nat, i ≠ index ∧ data[i]? = some (some y) := by
  constructor
  · rintro ⟨i, hi⟩
    by_cases hii : index = i
    · subst hii
      rw [List.getElem?_set] at hi
      simp only [eq_self_iff_true, if_true] at hi
      split at hi <;> simp at hi
    · rw [List.getElem?_set_ne hii] at hi
      exact ⟨i, Ne.symm hii, hi⟩
  · rintro ⟨i, hii, hi⟩
    exact ⟨i, by rw [List.getElem?_set_ne (Ne.symm hii)]; exact hi⟩

/-- The backward-shift loop, started with the hole at `index` and an `EMPTY` cell `e + 1`
steps ahead, terminates within `e + 1` iterations; marking the final hole vacant gives
vectors that satisfy the class invariant and hold exactly the nodes outside the first hole. -/
theorem shiftLoop_spec : ∀ (e : Nat) (data : List (Option (K × V))) (psl : List (Option Nat))
    (index : Nat), Hole hash data psl index → e + 1 < data.length →
    psl[(index + (e + 1)) % data.length]? = some none →
    ∃ data1 psl1 index1,
      (∀ fuel, e < fuel →
        shiftLoop fuel data psl index (advance index data.length) = some (data1, psl1, index1)) ∧
      Inv hash (data1.set index1 none) (psl1.set index1 none) ∧
      (∀ y, (∃ i : Nat, (data1.set index1 none)[i]? = some (some y)) ↔
        ∃ i : Nat, i ≠ index ∧ data[i]? = some (some y)) ∧
      occupied (psl1.set index1 none) = occupied (psl.set index none) ∧
      data1.length = data.length := by
  intro e
  induction e with
  | zero =>
    intro data psl index h hen he
    rw [← advance_eq_mod h.idx] at he
    refine ⟨data, psl, index, ?_, h.close (Or.inl he), exists_set_none_iff, rfl, rfl⟩
    intro fuel hfuel
    obtain ⟨fuel, rfl⟩ : ∃ f, fuel = f + 1 := ⟨fuel - 1, by omega⟩
    simp [shiftLoop, he]
  | succ e ih =>
    intro data psl index h hen he
    have hidx2 : index < psl.length := h.len ▸ h.idx
    have hnlt : advance index data.length < psl.length := by
      rw [h.len]
      exact advance_lt h.idx
    have hne : advance index data.length ≠ index := fun e1 => by
      have := advance_fixed e1
      omega
    cases hq : psl[advance index data.length]? with
    | none =>
      have := List.getElem?_eq_none_iff.1 hq
      omega
    | some cell =>
      cases cell with
      | none =>
        refine ⟨data, psl, index, ?_, h.close (Or.inl hq), exists_set_none_iff, rfl, rfl⟩
        intro fuel hfuel
        obtain ⟨fuel, rfl⟩ : ∃ f, fuel = f + 1 := ⟨fuel - 1, by omega⟩
        simp [shiftLoop, hq]
      | some q =>
        by_cases hq0 : q = 0
        · subst hq0
          refine ⟨data, psl, index, ?_, h.close (Or.inr hq), exists_set_none_iff, rfl, rfl⟩
          intro fuel hfuel
          obtain ⟨fuel, rfl⟩ : ∃ f, fuel = f + 1 := ⟨fuel - 1, by omega⟩
          simp [shiftLoop, hq]
        · have hr : ∃ r, data[advance index data.length]? = some (some r) := by
            cases hd : data[advance index data.length]? with
            | none =>
              have := List.getElem?_eq_none_iff.1 hd
              have := advance_lt h.idx
              omega
            | some cell =>
              cases cell with
              | none =>
                have := (h.sync _ hne).2 hd
                rw [hq] at this
                simp at this
              | some r => exact ⟨r, rfl⟩
          obtain ⟨r, hr⟩ := hr
          have hstep := h.shift hne hq hq0 hr
          have hfar : (index + (e + 1 + 1)) % data.length ≠ index :=
            add_mod_ne_self h.idx (by omega) (by omega)
          have he1 : (psl.set index (some (q - 1)))[(advance index data.length + (e + 1)) %
              (data.set index (some r)).length]? = some none := by
            rw [List.length_set, advance_add_mod h.idx, List.getElem?_set_ne (Ne.symm hfar)]
            exact he
          obtain ⟨data1, psl1, index1, hrun, hinv, hmem, hocc, hlen⟩ :=
            ih _ _ _ hstep (by rw [List.length_set]; omega) he1
          refine ⟨data1, psl1, index1, ?_, hinv, ?_, ?_, by rw [hlen, List.length_set]⟩
          · intro fuel hfuel
            obtain ⟨fuel, rfl⟩ : ∃ f, fuel = f + 1 := ⟨fuel - 1, by omega⟩
            have := hrun fuel (by omega)
            rw [List.length_set] at this
            rw [shiftLoop]
            simp only [hq, hq0, hr, ne_eq, not_false_eq_true, if_true]
            exact this
          · intro y
            rw [hmem y]
            constructor
            · rintro ⟨i, hi1, hi2⟩
              by_cases hii : index = i
              · subst hii
                rw [List.getElem?_set_self h.idx] at hi2
                cases hi2
                exact ⟨_, hne, hr⟩
              · rw [List.getElem?_set_ne hii] at hi2
                exact ⟨i, Ne.symm hii, hi2⟩
            · rintro ⟨i, hi1, hi2⟩
              by_cases hii : i = advance index data.length
              · subst hii
                rw [hr] at hi2
                cases hi2
                exact ⟨index, Ne.symm hne, List.getElem?_set_self h.idx⟩
              · exact ⟨i, hii, by rw [List.getElem?_set_ne (Ne.symm hi1)]; exact hi2⟩
          · rw [hocc]
            have h1 : (psl.set index (some (q - 1)))[advance index data.length]? =
                some (some q) := by
              rw [List.getElem?_set_ne (Ne.symm hne)]
              exact hq
            have h2 := occupied_set_none_taken h1
            have h3 : (psl.set index none)[index]? = some none :=
              List.getElem?_set_self hidx2
            have h4 := occupied_set_vacant (c := q - 1) h3
            rw [List.set_set] at h4
            omega

end Shift

/-! ## `erase` -/

section Erase

variable {K V : Type} [DecidableEq K] {hash : K → Nat}

/-- The probe loop of `erase` leaves the table untouched when the key is in no slot. -/
theorem eraseLoop_absent {t : Table K V} (h : Inv hash t.data_ t.psl_) (key : K)
    (habs : ∀ (i : Nat) (y : K × V), t.data_[i]? = some (some y) → y.1 ≠ key) :
    ∀ (k d index : Nat), index < t.data_.length → d + k = t.data_.length → ∀ fuel, k < fuel →
      eraseLoop fuel t key index d = some t := by
  intro k
  induction k with
  | zero =>
    intro d index hidx hdk fuel hfuel
    obtain ⟨fuel, rfl⟩ : ∃ f, fuel = f + 1 := ⟨fuel - 1, by omega⟩
    rcases h.cell hidx with hv | ⟨p, r, hp, hr⟩
    · simp [eraseLoop, hv]
    · have hpn := (h.home index p r hp hr).1
      have : ¬ d ≤ p := by omega
      simp [eraseLoop, hp, this]
  | succ k ih =>
    intro d index hidx hdk fuel hfuel
    obtain ⟨fuel, rfl⟩ : ∃ f, fuel = f + 1 := ⟨fuel - 1, by omega⟩
    rcases h.cell hidx with hv | ⟨p, r, hp, hr⟩
    · simp [eraseLoop, hv]
    · have hnext := ih (d + 1) (advance index t.data_.length) (advance_lt hidx) (by omega) fuel
        (by omega)
      have hkey : ¬ r.1 = key := habs index r hr
      rw [eraseLoop]
      simp only [hp, hr, hkey, if_false, hnext]
      split <;> [split <;> rfl; rfl]

/-- The probe loop of `erase` reaches the slot of a stored key, and the removal with its
backward shift leaves the table without that node. -/
theorem eraseLoop_stored {t : Table K V} (h : WF hash t) {i0 q : Nat} {x : K × V}
    (hp : t.psl_[i0]? = some (some q)) (hd : t.data_[i0]? = some (some x)) :
    ∃ t1, (∀ (k d : Nat), d + k = q → ∀ fuel, k + t.data_.length < fuel →
        eraseLoop fuel t x.1 ((hash x.1 + d) % t.data_.length) d = some t1) ∧
      Removed hash t x.1 t1 := by
  have hinv := h.inv
  have hhome := (hinv.home i0 q x hp hd).2
  have hi0 : i0 < t.data_.length := (List.getElem?_eq_some.1 hd).1
  have hi02 : i0 < t.psl_.length := (List.getElem?_eq_some.1 hp).1
  -- an `EMPTY` cell ahead of the slot found
  have hroom : occupied t.psl_ < t.psl_.length := by
    have := h.load
    have := hinv.pos
    rw [← h.count, hinv.len]
    omega
  obtain ⟨i1, hi1⟩ := exists_vacant hroom
  have hi1lt : i1 < t.data_.length := hinv.len ▸ (List.getElem?_eq_some.1 hi1).1
  have hne : i1 ≠ i0 := by
    rintro rfl
    rw [hp] at hi1
    simp at hi1
  obtain ⟨e, hen, hmod⟩ := exists_distance hi1lt hi0
  have he0 : e ≠ 0 := by
    rintro rfl
    rw [Nat.add_zero, Nat.mod_eq_of_lt hi0] at hmod
    exact hne hmod.symm
  obtain ⟨e, rfl⟩ : ∃ e1, e = e1 + 1 := ⟨e - 1, by omega⟩
  have hvac : (t.psl_.set i0 none)[(i0 + (e + 1)) % (t.data_.set i0 none).length]? =
      some none := by
    rw [List.length_set, hmod, List.getElem?_set_ne (Ne.symm hne)]
    exact hi1
  have hhole : Hole hash (t.data_.set i0 none) (t.psl_.set i0 none) i0 := hinv.hole hp
  obtain ⟨data1, psl1, index1, hrun, hinv1, hmem1, hocc1, hlen1⟩ :=
    shiftLoop_spec e _ _ i0 hhole (by rw [List.length_set]; exact hen) hvac
  have hsize := occupied_set_none_taken hp
  rw [List.set_set] at hocc1
  refine ⟨⟨data1.set index1 none, psl1.set index1 none, t.size_ - 1⟩, ?_,
    ⟨hinv1, ?_, ?_, ?_, by simp [hlen1]⟩⟩
  · intro k
    induction k with
    | zero =>
      intro d hdk fuel hfuel
      obtain ⟨fuel, rfl⟩ : ∃ f, fuel = f + 1 := ⟨fuel - 1, by omega⟩
      have : d = q := by omega
      subst this
      have hs := hrun fuel (by omega)
      rw [List.length_set] at hs
      rw [hhome]
      simp [eraseLoop, hp, hd, hs]
    | succ k ih =>
      intro d hdk fuel hfuel
      obtain ⟨fuel, rfl⟩ : ∃ f, fuel = f + 1 := ⟨fuel - 1, by omega⟩
      obtain ⟨p, hp1, hdp⟩ := hinv.chain (hash x.1) q q (by rw [hhome]; exact hp) (le_refl _) d
        (by omega)
      obtain ⟨r, hr⟩ := hinv.node_of_psl hp1
      have hnext := ih (d + 1) (by omega) fuel (by omega)
      rw [home_advance hinv.pos rfl] at hnext
      rw [eraseLoop]
      simp only [hp1, hdp, if_true, hr]
      by_cases hpd : p = d
      · simp only [hpd, if_true]
        by_cases hkey : r.1 = x.1
        · have hsame := hinv.uniq _ i0 r x hr hd hkey
          have hs := hrun fuel (by omega)
          rw [List.length_set] at hs
          simp only [hkey, if_true, hsame, hs]
        · simp only [hkey, if_false]
          exact hnext
      · simp only [hpd, if_false]
        exact hnext
  · show t.size_ - 1 = occupied (psl1.set index1 none)
    rw [hocc1, h.count]
    omega
  · show t.size_ - 1 + 1 = t.size_
    rw [h.count]
    omega
  · intro y
    show (∃ i : Nat, (data1.set index1 none)[i]? = some (some y)) ↔ _
    rw [hmem1 y]
    constructor
    · rintro ⟨i, hi, hy⟩
      rw [List.getElem?_set_ne (Ne.symm hi)] at hy
      exact ⟨⟨i, hy⟩, fun hk => hi (hinv.uniq i i0 y x hy hd hk)⟩
    · rintro ⟨⟨i, hy⟩, hk⟩
      have hi : i ≠ i0 := by
        rintro rfl
        rw [hd] at hy
        cases hy
        exact hk rfl
      exact ⟨i, hi, by rw [List.getElem?_set_ne (Ne.symm hi)]; exact hy⟩

end Erase

/-! ## More fuel never changes a result -/

section Fuel

variable {K V : Type} {hash : K → Nat}

theorem Mono.le {α : Type} {f : Nat → Option α} (hf : Mono f) {n m : Nat} {r : α}
    (h : f n = some r) (hnm : n ≤ m) : f m = some r := by
  induction hnm with
  | refl => exact h
  | step _ ih => exact hf _ _ ih

theorem Returns.of_eq {α : Type} {f : Nat → Option α} (hf : Mono f) {n : Nat} {r : α}
    (h : f n = some r) : Returns f r :=
  ⟨n, fun _ hle => hf.le h hle⟩

theorem Returns.eq_of {α : Type} {f : Nat → Option α} (hf : Mono f) {n : Nat} {r r1 : α}
    (h : Returns f r) (h1 : f n = some r1) : r1 = r := by
  obtain ⟨N, hN⟩ := h
  have h2 := hf.le h1 (Nat.le_max_left n N)
  rw [hN _ (Nat.le_max_right n N)] at h2
  exact (Option.some.inj h2).symm

theorem Returns.unique {α : Type} {f : Nat → Option α} {r r1 : α}
    (h : Returns f r) (h1 : Returns f r1) : r1 = r := by
  obtain ⟨N, hN⟩ := h
  obtain ⟨M, hM⟩ := h1
  have h2 := hM _ (Nat.le_max_left M N)
  rw [hN _ (Nat.le_max_right M N)] at h2
  exact (Option.some.inj h2).symm

theorem growLoop_mono : ∀ (fuel capacity size r : Nat),
    growLoop fuel capacity size = some r → growLoop (fuel + 1) capacity size = some r := by
  intro fuel
  induction fuel with
  | zero =>
    intro capacity size r h
    simp [growLoop] at h
  | succ fuel ih =>
    intro capacity size r h
    rw [growLoop] at h ⊢
    by_cases ho : overloaded capacity size = true
    · rw [if_pos ho] at h ⊢
      exact ih _ _ _ h
    · rw [if_neg ho] at h ⊢
      exact h

theorem reinsertAll_mono {ins ins1 : Table K V → K × V → Option (Table K V)}
    (hins : ∀ t x r, ins t x = some r → ins1 t x = some r) :
    ∀ (ps : List (Option Nat)) (ds : List (Option (K × V))) (t r : Table K V),
    reinsertAll ins ps ds t = some r → reinsertAll ins1 ps ds t = some r := by
  intro ps
  induction ps with
  | nil =>
    intro ds t r h
    cases ds with
    | nil => simpa [reinsertAll] using h
    | cons d ds => simp [reinsertAll] at h
  | cons p ps ih =>
    intro ds t r h
    cases ds with
    | nil => simpa [reinsertAll] using h
    | cons d ds =>
      cases p with
      | none =>
        simp only [reinsertAll] at h ⊢
        exact ih _ _ _ h
      | some q =>
        cases d with
        | none => simp [reinsertAll] at h
        | some node =>
          simp only [reinsertAll] at h ⊢
          cases ht : ins t node with
          | none => simp [ht] at h
          | some t0 =>
            rw [ht, Option.some_bind] at h
            rw [hins _ _ _ ht, Option.some_bind]
            exact ih _ _ _ h

theorem rebuildWith_mono {ins ins1 : Table K V → K × V → Option (Table K V)}
    (hins : ∀ t x r, ins t x = some r → ins1 t x = some r) (fuel : Nat) (t r : Table K V)
    (h : rebuildWith ins fuel t = some r) : rebuildWith ins1 (fuel + 1) t = some r := by
  unfold rebuildWith at h ⊢
  cases hg : growLoop fuel t.data_.length t.size_ with
  | none => simp [hg] at h
  | some capacity =>
    have hg1 := growLoop_mono _ _ _ _ hg
    simp only [hg, hg1] at h ⊢
    exact reinsertAll_mono hins _ _ _ _ h

theorem shiftLoop_mono : ∀ (fuel : Nat) (data : List (Option (K × V)))
    (psl : List (Option Nat)) (index next_index : Nat)
    (r : List (Option (K × V)) × List (Option Nat) × Nat),
    shiftLoop fuel data psl index next_index = some r →
    shiftLoop (fuel + 1) data psl index next_index = some r := by
  intro fuel
  induction fuel with
  | zero =>
    intro data psl index next_index r h
    simp [shiftLoop] at h
  | succ fuel ih =>
    intro data psl index next_index r h
    rw [shiftLoop] at h ⊢
    cases hp : psl[next_index]? with
    | none => simp [hp] at h
    | some cell =>
      cases cell with
      | none => simpa [hp] using h
      | some q =>
        simp only [hp] at h ⊢
        by_cases hq : q ≠ 0
        · rw [if_pos hq] at h ⊢
          cases hd : data[next_index]? with
          | none => simp [hd] at h
          | some moved =>
            simp only [hd] at h ⊢
            exact ih _ _ _ _ _ h
        · rw [if_neg hq] at h ⊢
          exact h

variable [DecidableEq K]

theorem insertLoop_mono : ∀ (fuel : Nat) (data : List (Option (K × V)))
    (psl : List (Option Nat)) (index c : Nat) (x : K × V) (r : InsertExit K V),
    insertLoop fuel data psl index c x = some r →
    insertLoop (fuel + 1) data psl index c x = some r := by
  intro fuel
  induction fuel with
  | zero =>
    intro data psl index c x r h
    simp [insertLoop] at h
  | succ fuel ih =>
    intro data psl index c x r h
    rw [insertLoop] at h ⊢
    cases hp : psl[index]? with
    | none => simp [hp] at h
    | some cell =>
      cases cell with
      | none => simpa [hp] using h
      | some p =>
        simp only [hp] at h ⊢
        by_cases hpc : p < c
        · rw [if_pos hpc] at h ⊢
          cases hd : data[index]? with
          | none => simp [hd] at h
          | some d =>
            cases d with
            | none => simp [hd] at h
            | some r1 =>
              simp only [hd] at h ⊢
              exact ih _ _ _ _ _ _ h
        · rw [if_neg hpc] at h ⊢
          by_cases hpe : p = c
          · rw [if_pos hpe] at h ⊢
            cases hd : data[index]? with
            | none => simp [hd] at h
            | some d =>
              cases d with
              | none => simp [hd] at h
              | some r1 =>
                simp only [hd] at h ⊢
                by_cases hk : r1.1 = x.1
                · rw [if_pos hk] at h ⊢
                  exact h
                · rw [if_neg hk] at h ⊢
                  exact ih _ _ _ _ _ _ h
          · rw [if_neg hpe] at h ⊢
            exact ih _ _ _ _ _ _ h

theorem insertNode_mono : ∀ (fuel : Nat) (t : Table K V) (x : K × V) (r : Table K V),
    insertNode hash fuel t x = some r → insertNode hash (fuel + 1) t x = some r := by
  intro fuel
  induction fuel with
  | zero =>
    intro t x r h
    simp [insertNode] at h
  | succ fuel ih =>
    intro t x r h
    rw [insertNode] at h ⊢
    cases hl : insertLoop fuel t.data_ t.psl_ (hash x.1 % t.data_.length) 0 x with
    | none => simp [hl] at h
    | some ex =>
      have hl1 := insertLoop_mono _ _ _ _ _ _ _ hl
      simp only [hl, hl1] at h ⊢
      cases ex with
      | duplicate data psl => exact h
      | vacant data psl index c1 x1 =>
        simp only at h ⊢
        by_cases ho : overloaded (data.set index (some x1)).length (t.size_ + 1) = true
        · rw [if_pos ho] at h ⊢
          exact rebuildWith_mono ih _ _ _ h
        · rw [if_neg ho] at h ⊢
          exact h

theorem findLoop_mono : ∀ (fuel : Nat) (data : List (Option (K × V)))
    (psl : List (Option Nat)) (key : K) (index c : Nat) (r : Option Nat),
    findLoop fuel data psl key index c = some r →
    findLoop (fuel + 1) data psl key index c = some r := by
  intro fuel
  induction fuel with
  | zero =>
    intro data psl key index c r h
    simp [findLoop] at h
  | succ fuel ih =>
    intro data psl key index c r h
    rw [findLoop] at h ⊢
    cases hp : psl[index]? with
    | none => simp [hp] at h
    | some cell =>
      cases cell with
      | none => simpa [hp] using h
      | some p =>
        simp only [hp] at h ⊢
        by_cases hcp : c ≤ p
        · rw [if_pos hcp] at h ⊢
          by_cases hpe : p = c
          · rw [if_pos hpe] at h ⊢
            cases hd : data[index]? with
            | none => simp [hd] at h
            | some d =>
              cases d with
              | none => simp [hd] at h
              | some r1 =>
                simp only [hd] at h ⊢
                by_cases hk : r1.1 = key
                · rw [if_pos hk] at h ⊢
                  exact h
                · rw [if_neg hk] at h ⊢
                  exact ih _ _ _ _ _ _ h
          · rw [if_neg hpe] at h ⊢
            exact ih _ _ _ _ _ _ h
        · rw [if_neg hcp] at h ⊢
          exact h

theorem eraseLoop_mono : ∀ (fuel : Nat) (t : Table K V) (key : K) (index c : Nat)
    (r : Table K V), eraseLoop fuel t key index c = some r →
    eraseLoop (fuel + 1) t key index c = some r := by
  intro fuel
  induction fuel with
  | zero =>
    intro t key index c r h
    simp [eraseLoop] at h
  | succ fuel ih =>
    intro t key index c r h
    rw [eraseLoop] at h ⊢
    cases hp : t.psl_[index]? with
    | none => simp [hp] at h
    | some cell =>
      cases cell with
      | none => simpa [hp] using h
      | some p =>
        simp only [hp] at h ⊢
        by_cases hcp : c ≤ p
        · rw [if_pos hcp] at h ⊢
          by_cases hpe : p = c
          · rw [if_pos hpe] at h ⊢
            cases hd : t.data_[index]? with
            | none => simp [hd] at h
            | some d =>
              cases d with
              | none => simp [hd] at h
              | some r1 =>
                simp only [hd] at h ⊢
                by_cases hk : r1.1 = key
                · rw [if_pos hk] at h ⊢
                  cases hs : shiftLoop fuel (t.data_.set index none) (t.psl_.set index none)
                      index (advance index t.data_.length) with
                  | none => simp [hs] at h
                  | some res =>
                    have hs1 := shiftLoop_mono _ _ _ _ _ _ hs
                    simp only [hs, hs1] at h ⊢
                    exact h
                · rw [if_neg hk] at h ⊢
                  exact ih _ _ _ _ _ h
          · rw [if_neg hpe] at h ⊢
            exact ih _ _ _ _ _ h
        · rw [if_neg hcp] at h ⊢
          exact h

theorem insert_mono (hash : K → Nat) (t : Table K V) (x : K × V) :
    Mono (fun fuel => insert hash fuel t x) :=
  fun n r h => insertNode_mono n t x r h

theorem erase_mono (hash : K → Nat) (t : Table K V) (key : K) :
    Mono (fun fuel => erase hash fuel t key) :=
  fun n r h => eraseLoop_mono n t key _ _ r h

theorem find_mono (hash : K → Nat) (t : Table K V) (key : K) :
    Mono (fun fuel => find hash fuel t key) := by
  intro n r h
  simp only [find] at h ⊢
  cases hl : findLoop n t.data_ t.psl_ key (hash key % t.data_.length) 0 with
  | none => simp [hl] at h
  | some res =>
    rw [findLoop_mono _ _ _ _ _ _ _ hl]
    rw [hl] at h
    exact h

end Fuel

/-! ## The public operations on a well-formed table -/

section Public

variable {K V : Type} {hash : K → Nat}

theorem WF.construct (hash : K → Nat) : WF hash (construct : Table K V) :=
  ⟨Inv.replicate hash Nat.one_pos, rfl, by simp [RobinHoodHashTable.construct]⟩

theorem clear_eq (t : Table K V) :
    clear t = ⟨List.replicate t.data_.length none, List.replicate t.data_.length none, 0⟩ := by
  simp [clear, List.map_const']

theorem WF.clear {t : Table K V} (h : WF hash t) : WF hash (clear t) := by
  rw [clear_eq]
  exact ⟨by simpa using Inv.replicate hash h.inv.pos,
    by simpa using (occupied_replicate t.data_.length).symm, by simp⟩

theorem not_stores_iff {t : Table K V} {key : K} :
    ¬ t.stores key ↔ ∀ (i : Nat) (y : K × V), t.data_[i]? = some (some y) → y.1 ≠ key := by
  constructor
  · rintro h i ⟨k, v⟩ hy rfl
    exact h ⟨i, v, hy⟩
  · rintro h ⟨i, v, hy⟩
    exact h i (key, v) hy rfl

theorem construct_stores_nothing (key : K) : ¬ (construct : Table K V).stores key := by
  rintro ⟨i, v, hi⟩
  cases i with
  | zero => simp [construct] at hi
  | succ i => simp [construct] at hi

theorem Iterator.create_occupied {psl : List (Option Nat)} {i p : Nat}
    (h : psl[i]? = some (some p)) : Iterator.create psl i i psl.length = ⟨i, i, psl.length⟩ := by
  obtain ⟨hi, he⟩ := List.getElem?_eq_some.1 h
  unfold Iterator.create
  rw [List.take_length, List.drop_eq_getElem_cons hi, he]
  simp [skipEmpty]

theorem Iterator.create_end (psl : List (Option Nat)) (d : Nat) :
    Iterator.create psl d psl.length psl.length = ⟨d, psl.length, psl.length⟩ := by
  unfold Iterator.create
  rw [List.take_length, List.drop_length]
  simp [skipEmpty]

theorem Table.end_eq (t : Table K V) :
    t.end_ = ⟨t.data_.length, t.psl_.length, t.psl_.length⟩ :=
  Iterator.create_end t.psl_ t.data_.length

theorem Table.deref_end (t : Table K V) : t.deref t.end_ = none := by
  rw [Table.end_eq]
  simp [Table.deref]

/-- The nodes of vectors that are in step are as many as the occupied cells. -/
theorem reduceOption_length_eq_occupied : ∀ (psl : List (Option Nat))
    (data : List (Option (K × V))), psl.length = data.length →
    (∀ i : Nat, psl[i]? = some none ↔ data[i]? = some none) →
    data.reduceOption.length = occupied psl := by
  intro psl
  induction psl with
  | nil =>
    intro data hlen _
    have : data = [] := List.length_eq_zero.1 hlen.symm
    subst this
    simp [occupied]
  | cons p psl ih =>
    intro data hlen hsync
    cases data with
    | nil => simp at hlen
    | cons d data =>
      have htail := ih data (by simpa using hlen) (fun i => by simpa using hsync (i + 1))
      have h0 := hsync 0
      simp only [List.getElem?_cons_zero, Option.some.injEq] at h0
      cases p with
      | none =>
        have : d = none := h0.1 rfl
        subst this
        simpa [occupied] using htail
      | some q =>
        cases d with
        | none => simp at h0
        | some node =>
          simp only [List.reduceOption_cons_of_some, List.length_cons, htail]
          simp [occupied]

/-- The nodes of a vector with pairwise distinct keys have pairwise distinct keys. -/
theorem reduceOption_keys_nodup : ∀ (data : List (Option (K × V))),
    (∀ (i j : Nat) (x y : K × V), data[i]? = some (some x) → data[j]? = some (some y) →
      x.1 = y.1 → i = j) → (data.reduceOption.map Prod.fst).Nodup := by
  intro data
  induction data with
  | nil => intro _; simp
  | cons d data ih =>
    intro huniq
    have htail := ih (fun i j x y hx hy hxy => by
      have := huniq (i + 1) (j + 1) x y (by simpa using hx) (by simpa using hy) hxy
      omega)
    cases d with
    | none => simpa using htail
    | some x =>
      rw [List.reduceOption_cons_of_some, List.map_cons, List.nodup_cons]
      refine ⟨?_, htail⟩
      intro hmem
      obtain ⟨y, hy, hyx⟩ := List.mem_map.1 hmem
      obtain ⟨j, hj⟩ := List.mem_iff_getElem?.1 (List.reduceOption_mem_iff.1 hy)
      have := huniq 0 (j + 1) x y (by simp) (by simpa using hj) hyx.symm
      omega

/-- The traversal started at the first occupied slot at or after `pos` terminates and collects
the nodes of the slots from `pos` on, in slot order. -/
theorem traverseFrom_spec {t : Table K V} (h : Inv hash t.data_ t.psl_) :
    ∀ (m pos : Nat), pos + m = t.psl_.length → ∀ fuel, m < fuel →
      traverseFrom fuel t
        ⟨(skipEmpty (t.psl_.drop pos) pos pos).1, (skipEmpty (t.psl_.drop pos) pos pos).2,
          t.psl_.length⟩ = some (t.data_.drop pos).reduceOption := by
  intro m
  induction m with
  | zero =>
    intro pos hpos fuel hfuel
    obtain ⟨fuel, rfl⟩ : ∃ f, fuel = f + 1 := ⟨fuel - 1, by omega⟩
    have hp : pos = t.psl_.length := by omega
    subst hp
    rw [List.drop_length, h.len, List.drop_length]
    simp [traverseFrom, skipEmpty, Table.end_eq, Iterator.same, h.len]
  | succ m ih =>
    intro pos hpos fuel hfuel
    obtain ⟨fuel, rfl⟩ : ∃ f, fuel = f + 1 := ⟨fuel - 1, by omega⟩
    have hlt : pos < t.psl_.length := by omega
    have hlt2 : pos < t.data_.length := h.len ▸ hlt
    have hnext := ih (pos + 1) (by omega)
    rw [List.drop_eq_getElem_cons hlt, List.drop_eq_getElem_cons hlt2]
    rcases h.cell hlt2 with hv | ⟨p, x, hp, hx⟩
    · have hp1 : t.psl_[pos] = none := by
        rw [List.getElem?_eq_getElem hlt] at hv
        exact Option.some.inj hv
      have hd1 : t.data_[pos] = none := by
        have := (h.sync pos).1 hv
        rw [List.getElem?_eq_getElem hlt2] at this
        exact Option.some.inj this
      rw [hp1, hd1, List.reduceOption_cons_of_none]
      simp only [skipEmpty]
      exact hnext (fuel + 1) (by omega)
    · have hp1 : t.psl_[pos] = some p := by
        rw [List.getElem?_eq_getElem hlt] at hp
        exact Option.some.inj hp
      have hd1 : t.data_[pos] = some x := by
        rw [List.getElem?_eq_getElem hlt2] at hx
        exact Option.some.inj hx
      rw [hp1, hd1, List.reduceOption_cons_of_some]
      have hne : ¬ pos = t.data_.length := by omega
      simp only [skipEmpty, traverseFrom, Table.end_eq, Iterator.same, hne, decide_False,
        Bool.false_eq_true, if_false, Table.deref, hx, Option.join, Option.some_bind, id,
        Iterator.increment, List.take_length]
      rw [hnext fuel (by omega)]
      rfl

theorem writeRef_stored {t : Table K V} {slot : Nat} {node : K × V}
    (hd : t.data_[slot]? = some (some node)) (value : V) :
    (writeRef t slot value).data_[slot]? = some (some (node.1, value)) := by
  have hslot : slot < t.data_.length := (List.getElem?_eq_some.1 hd).1
  simp [writeRef, hd, List.getElem?_set_self hslot]

theorem found_iterator {t : Table K V} {i : Nat} {x : K × V}
    (hd : t.data_[i]? = some (some x)) :
    (Iterator.mk i i t.psl_.length).same t.end_ = false ∧
      t.deref (Iterator.mk i i t.psl_.length) = some x := by
  have hi : i < t.data_.length := (List.getElem?_eq_some.1 hd).1
  constructor
  · rw [Table.end_eq]
    simp only [Iterator.same, decide_eq_false_iff_not]
    omega
  · simp [Table.deref, hd]

/-- Overwriting the value of a stored node keeps the invariant of the vectors. -/
theorem Inv.set_value {data : List (Option (K × V))} {psl : List (Option Nat)}
    (h : Inv hash data psl) {slot : Nat} {node : K × V} (hd : data[slot]? = some (some node))
    (value : V) : Inv hash (data.set slot (some (node.1, value))) psl := by
  have hslot : slot < data.length := (List.getElem?_eq_some.1 hd).1
  have key_of : ∀ (i : Nat) (y : K × V),
      (data.set slot (some (node.1, value)))[i]? = some (some y) →
      ∃ z, data[i]? = some (some z) ∧ z.1 = y.1 := by
    intro i y hy
    by_cases hi : slot = i
    · subst hi
      rw [List.getElem?_set_self hslot] at hy
      cases hy
      exact ⟨node, hd, rfl⟩
    · rw [List.getElem?_set_ne hi] at hy
      exact ⟨y, hy, rfl⟩
  refine ⟨by simp [h.len], by simpa using h.pos, ?_, ?_, ?_, ?_⟩
  · intro i
    by_cases hi : slot = i
    · subst hi
      rw [List.getElem?_set_self hslot, h.sync, hd]
      simp
    · rw [List.getElem?_set_ne hi]
      exact h.sync i
  · intro i p y hp hy
    obtain ⟨z, hz, hzy⟩ := key_of i y hy
    rw [List.length_set, ← hzy]
    exact h.home i p z hp hz
  · rw [List.length_set]
    exact h.order
  · intro i j y z hy hz hyz
    obtain ⟨y1, hy1, hyy⟩ := key_of i y hy
    obtain ⟨z1, hz1, hzz⟩ := key_of j z hz
    exact h.uniq i j y1 z1 hy1 hz1 (by rw [hyy, hzz, hyz])

theorem WF.writeRef {t : Table K V} (h : WF hash t) (slot : Nat) (value : V) :
    WF hash (writeRef t slot value) := by
  unfold RobinHoodHashTable.writeRef
  cases hd : t.data_[slot]? with
  | none => simpa using h
  | some cell =>
    cases cell with
    | none => simpa using h
    | some node =>
      simp only [Option.join]
      exact ⟨h.inv.set_value hd value, h.count, by simpa using h.load⟩

variable [DecidableEq K]

/-- On a well-formed table `find` terminates at the slot of a stored key. -/
theorem find_stored {t : Table K V} (h : WF hash t) {i0 : Nat} {x : K × V}
    (hd : t.data_[i0]? = some (some x)) :
    Returns (fun fuel => find hash fuel t x.1) ⟨i0, i0, t.psl_.length⟩ := by
  obtain ⟨q, hp⟩ := h.inv.psl_of_node hd
  refine ⟨q + 1, fun fuel hfuel => ?_⟩
  have := findLoop_stored h.inv hp hd q 0 (by omega) fuel (by omega)
  rw [Nat.add_zero] at this
  simp only [find, this]
  rw [Iterator.create_occupied hp]

/-- On a well-formed table `find` terminates with `end()` for a key that is in no slot. -/
theorem find_absent {t : Table K V} (h : WF hash t) {key : K} (habs : ¬ t.stores key) :
    Returns (fun fuel => find hash fuel t key) t.end_ := by
  refine ⟨t.data_.length + 1, fun fuel hfuel => ?_⟩
  have := findLoop_absent h.inv key (not_stores_iff.1 habs) t.data_.length 0
    (hash key % t.data_.length) (Nat.mod_lt _ h.inv.pos) (by omega) fuel (by omega)
  simp only [find, this]

/-- On a well-formed table `insert` of a stored key terminates and changes nothing. -/
theorem insert_stored {t : Table K V} (h : WF hash t) {i0 : Nat} {x : K × V} (v : V)
    (hd : t.data_[i0]? = some (some x)) :
    Returns (fun fuel => insertLoop fuel t.data_ t.psl_ (hash x.1 % t.data_.length) 0 (x.1, v))
      (InsertExit.duplicate t.data_ t.psl_) ∧
    Returns (fun fuel => insert hash fuel t (x.1, v)) t := by
  obtain ⟨q, hp⟩ := h.inv.psl_of_node hd
  have hloop : ∀ fuel, q < fuel →
      insertLoop fuel t.data_ t.psl_ (hash x.1 % t.data_.length) 0 (x.1, v) =
        some (InsertExit.duplicate t.data_ t.psl_) := by
    intro fuel hfuel
    have := insertLoop_duplicate h.inv v hp hd q 0 (by omega) fuel hfuel
    rw [Nat.add_zero] at this
    exact this
  refine ⟨⟨q + 1, fun fuel hfuel => hloop fuel (by omega)⟩, ⟨q + 2, fun fuel hfuel => ?_⟩⟩
  obtain ⟨fuel, rfl⟩ : ∃ f, fuel = f + 1 := ⟨fuel - 1, by omega⟩
  simp [insert, insertNode, hloop fuel (by omega)]

/-- On a well-formed table `insert` of a key that is in no slot terminates with a well-formed
table that holds the former nodes and the new one. -/
theorem insert_fresh {t : Table K V} (h : WF hash t) {x : K × V} (habs : ¬ t.stores x.1) :
    ∃ t1, Returns (fun fuel => insert hash fuel t x) t1 ∧ Added hash t x t1 ∧ WF hash t1 ∧
      t.data_.length ≤ t1.data_.length := by
  obtain ⟨t1, hrun, hadd, hload, hcap⟩ := insertNode_fresh h (not_stores_iff.1 habs)
  exact ⟨t1, hrun, hadd, ⟨hadd.inv, hadd.count, hload⟩, hcap⟩

theorem insert_wf {t t1 : Table K V} (h : WF hash t) {x : K × V} {fuel : Nat}
    (hrun : insert hash fuel t x = some t1) : WF hash t1 := by
  by_cases hs : t.stores x.1
  · obtain ⟨i0, v0, hd⟩ := hs
    have := (insert_stored h x.2 hd).2
    have heq := Returns.eq_of (insert_mono hash t x) this hrun
    rw [heq]
    exact h
  · obtain ⟨t2, hret, _, hwf, _⟩ := insert_fresh h hs
    rw [Returns.eq_of (insert_mono hash t x) hret hrun]
    exact hwf

/-- On a well-formed table `erase` of a key that is in no slot terminates and changes
nothing. -/
theorem erase_absent {t : Table K V} (h : WF hash t) {key : K} (habs : ¬ t.stores key) :
    Returns (fun fuel => erase hash fuel t key) t :=
  ⟨t.data_.length + 1, fun fuel hfuel =>
    eraseLoop_absent h.inv key (not_stores_iff.1 habs) t.data_.length 0
      (hash key % t.data_.length) (Nat.mod_lt _ h.inv.pos) (by omega) fuel (by omega)⟩

/-- On a well-formed table `erase` of a stored key terminates with a well-formed table that
holds the other nodes. -/
theorem erase_stored {t : Table K V} (h : WF hash t) {i0 : Nat} {x : K × V}
    (hd : t.data_[i0]? = some (some x)) :
    ∃ t1, Returns (fun fuel => erase hash fuel t x.1) t1 ∧ Removed hash t x.1 t1 ∧
      WF hash t1 := by
  obtain ⟨q, hp⟩ := h.inv.psl_of_node hd
  obtain ⟨t1, hrun, hrem⟩ := eraseLoop_stored h hp hd
  refine ⟨t1, ⟨q + t.data_.length + 1, fun fuel hfuel => ?_⟩, hrem, ⟨hrem.inv, hrem.count, ?_⟩⟩
  · have := hrun q 0 (by omega) fuel (by omega)
    rw [Nat.add_zero] at this
    exact this
  · have := hrem.size
    have := hrem.len
    have := h.load
    omega

theorem erase_wf {t t1 : Table K V} (h : WF hash t) {key : K} {fuel : Nat}
    (hrun : erase hash fuel t key = some t1) : WF hash t1 := by
  by_cases hs : t.stores key
  · obtain ⟨i0, v0, hd⟩ := hs
    obtain ⟨t2, hret, _, hwf⟩ := erase_stored (x := (key, v0)) h hd
    rw [Returns.eq_of (erase_mono hash t key) hret hrun]
    exact hwf
  · rw [Returns.eq_of (erase_mono hash t key) (erase_absent h hs) hrun]
    exact h

/-- What `operator[]` does to the table: nothing, or the `insert` of the key with the default
value; the slot it returns holds a node. -/
theorem operatorIndex_table [Inhabited V] {t t1 : Table K V} {key : K} {fuel slot : Nat}
    (h : operatorIndex hash fuel t key = some (t1, slot)) :
    (t1 = t ∨ insert hash fuel t (key, default) = some t1) ∧
      ∃ y, t1.data_[slot]? = some (some y) := by
  unfold operatorIndex at h
  have hderef : ∀ (t2 : Table K V) (it : Iterator) (y : K × V), t2.deref it = some y →
      t2.data_[it.data_iterator_]? = some (some y) := by
    intro t2 it y hy
    unfold Table.deref at hy
    cases hc : t2.data_[it.data_iterator_]? with
    | none => simp [hc] at hy
    | some cell =>
      cases cell with
      | none => simp [hc] at hy
      | some z =>
        rw [hc] at hy
        simp at hy
        rw [hy]
  cases hf : find hash fuel t key with
  | none => simp [hf] at h
  | some it =>
    simp only [hf] at h
    by_cases hsame : it.same t.end_ = true
    · rw [if_pos hsame] at h
      cases hi : insert hash fuel t (key, default) with
      | none => simp [hi] at h
      | some t2 =>
        simp only [hi] at h
        cases hf2 : find hash fuel t2 key with
        | none => simp [hf2] at h
        | some it2 =>
          simp only [hf2] at h
          cases hd : t2.deref it2 with
          | none => simp [hd] at h
          | some y =>
            simp only [hd] at h
            cases h
            exact ⟨Or.inr rfl, y, hderef _ _ _ hd⟩
    · rw [if_neg hsame] at h
      cases hd : t.deref it with
      | none => simp [hd] at h
      | some y =>
        simp only [hd] at h
        cases h
        exact ⟨Or.inl rfl, y, hderef _ _ _ hd⟩

/-- Every table that the public interface can produce is well formed. -/
theorem Reachable.wf [Inhabited V] {t : Table K V} (h : Reachable hash t) : WF hash t := by
  induction h with
  | construct => exact WF.construct hash
  | insert t t1 fuel node _ hrun ih => exact insert_wf ih hrun
  | erase t t1 fuel key _ hrun ih => exact erase_wf ih hrun
  | clear t _ ih => exact ih.clear
  | operatorIndex t t1 fuel key slot _ hrun ih =>
    rcases (operatorIndex_table hrun).1 with rfl | hins
    · exact ih
    · exact insert_wf ih hins
  | assign t t1 fuel key slot value _ hrun ih =>
    rcases (operatorIndex_table hrun).1 with rfl | hins
    · exact ih.writeRef slot value
    · exact (insert_wf ih hins).writeRef slot value

/-- On a well-formed table `operator[]` of a stored key terminates, leaves the table as it
is and returns the slot of that key. -/
theorem operatorIndex_stored [Inhabited V] {t : Table K V} (h : WF hash t) {i0 : Nat}
    {x : K × V} (hd : t.data_[i0]? = some (some x)) :
    Returns (fun fuel => operatorIndex hash fuel t x.1) (t, i0) := by
  obtain ⟨N, hN⟩ := find_stored h hd
  refine ⟨N, fun fuel hfuel => ?_⟩
  simp [operatorIndex, hN fuel hfuel, (found_iterator hd).1, (found_iterator hd).2]

/-- On a well-formed table `operator[]` of a key that is in no slot terminates with the table
that `insert` of the key with the default value gives, and returns the slot of the new
node. -/
theorem operatorIndex_absent [Inhabited V] {t : Table K V} (h : WF hash t) {key : K}
    (habs : ¬ t.stores key) :
    ∃ t1 slot, Returns (fun fuel => operatorIndex hash fuel t key) (t1, slot) ∧
      t1.data_[slot]? = some (some (key, default)) ∧ Added hash t (key, default) t1 ∧
      WF hash t1 := by
  obtain ⟨N1, h1⟩ := find_absent h habs
  obtain ⟨t1, ⟨N2, h2⟩, hadd, hwf, _⟩ := insert_fresh (x := (key, (default : V))) h habs
  obtain ⟨i, hi⟩ := (hadd.mem (key, default)).2 (Or.inr rfl)
  obtain ⟨N3, h3⟩ := find_stored hwf hi
  refine ⟨t1, i, ⟨N1 + N2 + N3, fun fuel hfuel => ?_⟩, hi, hadd, hwf⟩
  have hend : t.end_.same t.end_ = true := by simp [Iterator.same]
  simp [operatorIndex, h1 fuel (by omega), h2 fuel (by omega), h3 fuel (by omega), hend,
    (found_iterator hi).2]

/-- On a well-formed table `at` of a stored key terminates with the stored value. -/
theorem atKey_stored {t : Table K V} (h : WF hash t) {i0 : Nat} {x : K × V}
    (hd : t.data_[i0]? = some (some x)) :
    Returns (fun fuel => atKey hash fuel t x.1) (AtResult.value x.2) := by
  obtain ⟨N, hN⟩ := find_stored h hd
  refine ⟨N, fun fuel hfuel => ?_⟩
  simp [atKey, hN fuel hfuel, (found_iterator hd).1, (found_iterator hd).2]

/-- On a well-formed table `at` of a key that is in no slot terminates with the exception. -/
theorem atKey_absent {t : Table K V} (h : WF hash t) {key : K} (habs : ¬ t.stores key) :
    Returns (fun fuel => atKey hash fuel t key) AtResult.out_of_range := by
  obtain ⟨N, hN⟩ := find_absent h habs
  refine ⟨N, fun fuel hfuel => ?_⟩
  have hend : t.end_.same t.end_ = true := by simp [Iterator.same]
  simp [atKey, hN fuel hfuel, hend]

theorem stores_iff_hasKey {t : Table K V} {key : K} : t.stores key ↔ t.hasKey key = true := by
  unfold Table.stores Table.hasKey
  rw [List.any_eq_true]
  constructor
  · rintro ⟨i, v, hi⟩
    exact ⟨some (key, v), List.mem_iff_getElem?.2 ⟨i, hi⟩, by simp⟩
  · rintro ⟨cell, hmem, hcell⟩
    obtain ⟨i, hi⟩ := List.mem_iff_getElem?.1 hmem
    cases cell with
    | none => simp at hcell
    | some y =>
      obtain ⟨k, v⟩ := y
      simp only [decide_eq_true_eq] at hcell
      subst hcell
      exact ⟨i, v, hi⟩

end Public

/-! ## Reachability of the sample tables -/

theorem sample1_reachable : Reachable sampleHash sample1 :=
  Reachable.insert construct sample1 20 (0, 0) Reachable.construct (by decide)

theorem sample2_reachable : Reachable sampleHash sample2 :=
  Reachable.insert sample1 sample2 20 (1, 10) sample1_reachable (by decide)

theorem sample3_reachable : Reachable sampleHash sample3 :=
  Reachable.insert sample2 sample3 20 (2, 20) sample2_reachable (by decide)

/-! ## The claims -/

section Claims

variable {K V : Type} [DecidableEq K] [Inhabited V]

/-- C1 (round trip): on a table reachable from the default-constructed one, `insert(k, v)` of
a key that is in no slot terminates, and `find(k)` on the result terminates at an iterator
that is not `end()` and points to the node `(k, v)`.  The statement covers every reachable
table, so also the inserts that swap residents and those that call `rebuild`. -/
theorem C1_round_trip (hash : K → Nat) (t : Table K V) (hr : Reachable hash t) (k : K) (v : V)
    (hk : ¬ t.stores k) :
    ∃ t1 it, Returns (fun fuel => insert hash fuel t (k, v)) t1 ∧
      Returns (fun fuel => find hash fuel t1 k) it ∧
      it.same t1.end_ = false ∧ t1.deref it = some (k, v) := by
  obtain ⟨t1, hrun, hadd, hwf, _⟩ := insert_fresh (x := (k, v)) hr.wf hk
  obtain ⟨i, hi⟩ := (hadd.mem (k, v)).2 (Or.inr rfl)
  exact ⟨t1, _, hrun, find_stored hwf hi, (found_iterator hi).1, (found_iterator hi).2⟩

/-- Witness of C1: key 8 inserted into `sample3`, where it displaces the nodes of keys 1
and 2. -/
theorem C1_round_trip_witness :
    Reachable sampleHash sample3 ∧ ¬ sample3.stores 8 ∧
    ∃ t1 it, Returns (fun fuel => insert sampleHash fuel sample3 (8, 80)) t1 ∧
      Returns (fun fuel => find sampleHash fuel t1 8) it ∧
      it.same t1.end_ = false ∧ t1.deref it = some (8, 80) :=
  ⟨sample3_reachable, fun h => absurd (stores_iff_hasKey.1 h) (by decide),
    C1_round_trip sampleHash sample3 sample3_reachable 8 80
      (fun h => absurd (stores_iff_hasKey.1 h) (by decide))⟩

/-- C2 (duplicate insert is a no-op): on a reachable table that holds `(k, v1)`, the probe
loop of `insert(k, v2)` leaves through the duplicate branch with both vectors as they were
(no swap has been made), `insert(k, v2)` terminates with the table unchanged, and `find(k)`
still points to `(k, v1)`. -/
theorem C2_duplicate_insert (hash : K → Nat) (t : Table K V) (hr : Reachable hash t) (k : K)
    (v1 v2 : V) (hk : t.holds k v1) :
    Returns (fun fuel => insertLoop fuel t.data_ t.psl_ (hash k % t.data_.length) 0 (k, v2))
      (InsertExit.duplicate t.data_ t.psl_) ∧
    Returns (fun fuel => insert hash fuel t (k, v2)) t ∧
    ∃ it, Returns (fun fuel => find hash fuel t k) it ∧
      it.same t.end_ = false ∧ t.deref it = some (k, v1) := by
  obtain ⟨i, hi⟩ := hk
  have h := insert_stored hr.wf v2 hi
  exact ⟨h.1, h.2, _, find_stored hr.wf hi, (found_iterator hi).1, (found_iterator hi).2⟩

/-- Witness of C2: a second value for key 1 of `sample3`. -/
theorem C2_duplicate_insert_witness :
    Reachable sampleHash sample3 ∧ sample3.holds 1 10 ∧
    (Returns (fun fuel => insertLoop fuel sample3.data_ sample3.psl_
        (sampleHash 1 % sample3.data_.length) 0 (1, 99))
      (InsertExit.duplicate sample3.data_ sample3.psl_) ∧
    Returns (fun fuel => insert sampleHash fuel sample3 (1, 99)) sample3 ∧
    ∃ it, Returns (fun fuel => find sampleHash fuel sample3 1) it ∧
      it.same sample3.end_ = false ∧ sample3.deref it = some (1, 10)) :=
  ⟨sample3_reachable, ⟨1, rfl⟩,
    C2_duplicate_insert sampleHash sample3 sample3_reachable 1 10 99 ⟨1, rfl⟩⟩

/-- C3 (erase removes): on a reachable table `erase(k)` terminates, `find(k)` on the result
terminates with `end()`, and `size()` is one less than before when `k` was stored and the
same as before otherwise. -/
theorem C3_erase_removes (hash : K → Nat) (t : Table K V) (hr : Reachable hash t) (k : K) :
    ∃ t1, Returns (fun fuel => erase hash fuel t k) t1 ∧
      Returns (fun fuel => find hash fuel t1 k) t1.end_ ∧
      (t.stores k → size t1 + 1 = size t) ∧ (¬ t.stores k → size t1 = size t) := by
  by_cases hs : t.stores k
  · obtain ⟨i, v, hi⟩ := hs
    obtain ⟨t1, hrun, hrem, hwf⟩ := erase_stored (x := (k, v)) hr.wf hi
    have habs : ¬ t1.stores k := by
      rintro ⟨j, w, hj⟩
      exact ((hrem.mem (k, w)).1 ⟨j, hj⟩).2 rfl
    exact ⟨t1, hrun, find_absent hwf habs, fun _ => hrem.size,
      fun hn => absurd ⟨i, v, hi⟩ hn⟩
  · exact ⟨t, erase_absent hr.wf hs, find_absent hr.wf hs, fun h => absurd h hs, fun _ => rfl⟩

/-- Witness of C3: key 1 erased from `sample3`. -/
theorem C3_erase_removes_witness :
    Reachable sampleHash sample3 ∧
    ∃ t1, Returns (fun fuel => erase sampleHash fuel sample3 1) t1 ∧
      Returns (fun fuel => find sampleHash fuel t1 1) t1.end_ ∧
      (sample3.stores 1 → size t1 + 1 = size sample3) ∧
      (¬ sample3.stores 1 → size t1 = size sample3) :=
  ⟨sample3_reachable, C3_erase_removes sampleHash sample3 sample3_reachable 1⟩

/-- C4 (early-exit lookup is complete and sound): on a reachable table `find(k)` terminates;
its result equals `end()` exactly when no slot holds key `k`; a result other than `end()`
points to a node with key `k`; and whenever the probe loop leaves through its loop condition
(an `EMPTY` cell, or a probe length below the number of steps taken), `k` is in no slot. -/
theorem C4_find_complete_sound (hash : K → Nat) (t : Table K V) (hr : Reachable hash t)
    (k : K) :
    ∃ it, Returns (fun fuel => find hash fuel t k) it ∧
      (it.same t.end_ = true ↔ ¬ t.stores k) ∧
      (it.same t.end_ = false → ∃ v, t.deref it = some (k, v)) ∧
      (∀ fuel, findLoop fuel t.data_ t.psl_ k (hash k % t.data_.length) 0 = some none →
        ¬ t.stores k) := by
  have hwf := hr.wf
  by_cases hs : t.stores k
  · obtain ⟨i, v, hi⟩ := hs
    obtain ⟨q, hp⟩ := hwf.inv.psl_of_node hi
    refine ⟨_, find_stored hwf hi, ?_, fun _ => ⟨v, (found_iterator hi).2⟩, ?_⟩
    · rw [(found_iterator hi).1]
      simp only [Bool.false_eq_true, false_iff, not_not]
      exact ⟨i, v, hi⟩
    · intro fuel hrun _
      have hmono : Mono (fun n => findLoop n t.data_ t.psl_ k (hash k % t.data_.length) 0) :=
        fun n r h => findLoop_mono n _ _ _ _ _ r h
      have hret : Returns (fun n => findLoop n t.data_ t.psl_ k (hash k % t.data_.length) 0)
          (some i) := by
        refine ⟨q + 1, fun n hn => ?_⟩
        have := findLoop_stored hwf.inv hp hi q 0 (by omega) n (by omega)
        rw [Nat.add_zero] at this
        exact this
      have := Returns.eq_of hmono hret hrun
      simp at this
  · refine ⟨t.end_, find_absent hwf hs, ?_, ?_, fun _ _ => hs⟩
    · simp [Iterator.same, hs]
    · intro h
      simp [Iterator.same] at h

/-- Witness of C4: key 2 looked up in `sample3`. -/
theorem C4_find_complete_sound_witness :
    Reachable sampleHash sample3 ∧
    ∃ it, Returns (fun fuel => find sampleHash fuel sample3 2) it ∧
      (it.same sample3.end_ = true ↔ ¬ sample3.stores 2) ∧
      (it.same sample3.end_ = false → ∃ v, sample3.deref it = some (2, v)) ∧
      (∀ fuel, findLoop fuel sample3.data_ sample3.psl_ 2
          (sampleHash 2 % sample3.data_.length) 0 = some none → ¬ sample3.stores 2) :=
  ⟨sample3_reachable, C4_find_complete_sound sampleHash sample3 sample3_reachable 2⟩

/-- C5 (load invariant): every reachable table satisfies `5 * size ≤ 3 * capacity`, and so
does the table that any `insert` (new key or duplicate), any `erase` and `clear` return on
it. -/
theorem C5_load_invariant (hash : K → Nat) (t : Table K V) (hr : Reachable hash t) :
    5 * size t ≤ 3 * t.data_.length ∧
    (∀ fuel node t1, insert hash fuel t node = some t1 → 5 * size t1 ≤ 3 * t1.data_.length) ∧
    (∀ fuel key t1, erase hash fuel t key = some t1 → 5 * size t1 ≤ 3 * t1.data_.length) ∧
    5 * size (clear t) ≤ 3 * (clear t).data_.length :=
  ⟨hr.wf.load, fun _ _ _ h => (insert_wf hr.wf h).load, fun _ _ _ h => (erase_wf hr.wf h).load,
    hr.wf.clear.load⟩

/-- Witness of C5: the load bound of `sample3` and of the tables made from it. -/
theorem C5_load_invariant_witness :
    Reachable sampleHash sample3 ∧
    (5 * size sample3 ≤ 3 * sample3.data_.length ∧
    (∀ fuel node t1, insert sampleHash fuel sample3 node = some t1 →
      5 * size t1 ≤ 3 * t1.data_.length) ∧
    (∀ fuel key t1, erase sampleHash fuel sample3 key = some t1 →
      5 * size t1 ≤ 3 * t1.data_.length) ∧
    5 * size (clear sample3) ≤ 3 * (clear sample3).data_.length) :=
  ⟨sample3_reachable, C5_load_invariant sampleHash sample3 sample3_reachable⟩

/-- C6 (traversal completeness): on a reachable table the traversal from `begin()` by
`operator++` up to `end()` terminates without dereferencing a vacant slot, and the nodes it
yields are the contents of the occupied slots in increasing slot order, each once; they are
`size()` many, `size()` is the number of occupied slots, and no key is yielded twice. -/
theorem C6_traversal_complete (hash : K → Nat) (t : Table K V) (hr : Reachable hash t) :
    ∃ l, Returns (fun fuel => traverse fuel t) l ∧ l = t.data_.reduceOption ∧
      l.length = size t ∧ size t = occupied t.psl_ ∧ (l.map Prod.fst).Nodup := by
  have hwf := hr.wf
  refine ⟨t.data_.reduceOption, ⟨t.psl_.length + 1, fun fuel hfuel => ?_⟩, rfl, ?_, hwf.count,
    reduceOption_keys_nodup _ hwf.inv.uniq⟩
  · have := traverseFrom_spec hwf.inv t.psl_.length 0 (by omega) fuel (by omega)
    rw [List.drop_zero, List.drop_zero] at this
    simp only [traverse, Table.begin, Iterator.create, List.take_length, List.drop_zero]
    exact this
  · rw [reduceOption_length_eq_occupied _ _ hwf.inv.len hwf.inv.sync]
    exact hwf.count.symm

/-- Witness of C6: the traversal of `sample3`. -/
theorem C6_traversal_complete_witness :
    Reachable sampleHash sample3 ∧
    ∃ l, Returns (fun fuel => traverse fuel sample3) l ∧ l = sample3.data_.reduceOption ∧
      l.length = size sample3 ∧ size sample3 = occupied sample3.psl_ ∧
      (l.map Prod.fst).Nodup :=
  ⟨sample3_reachable, C6_traversal_complete sampleHash sample3 sample3_reachable⟩

/-- C7 (indexed access): on a reachable table, `operator[](k)` of a stored key terminates,
leaves the table unchanged and returns a reference to the stored value; `operator[](k)` of a
key in no slot terminates with a table in which the reference reads the default value,
`find(k)` points to `(k, default)` and `size()` is one more than before; and after an
assignment through the returned reference, `operator[](k)` leaves the table unchanged and
returns a reference that reads the assigned value. -/
theorem C7_indexed_access (hash : K → Nat) (t : Table K V) (hr : Reachable hash t) (k : K) :
    (∀ v, t.holds k v → ∃ slot, Returns (fun fuel => operatorIndex hash fuel t k) (t, slot) ∧
      readRef t slot = some v) ∧
    (¬ t.stores k → ∃ t1 slot it, Returns (fun fuel => operatorIndex hash fuel t k) (t1, slot) ∧
      readRef t1 slot = some default ∧ Returns (fun fuel => find hash fuel t1 k) it ∧
      t1.deref it = some (k, default) ∧ size t1 = size t + 1) ∧
    (∀ t1 slot value, Returns (fun fuel => operatorIndex hash fuel t k) (t1, slot) →
      ∃ slot2, Returns (fun fuel => operatorIndex hash fuel (writeRef t1 slot value) k)
          (writeRef t1 slot value, slot2) ∧
        readRef (writeRef t1 slot value) slot2 = some value) := by
  have hwf := hr.wf
  have hkey : ∀ t1 slot, Returns (fun fuel => operatorIndex hash fuel t k) (t1, slot) →
      WF hash t1 ∧ ∃ v, t1.data_[slot]? = some (some (k, v)) := by
    intro t1 slot hret
    by_cases hs : t.stores k
    · obtain ⟨i, v, hi⟩ := hs
      have := Returns.unique (operatorIndex_stored (x := (k, v)) hwf hi) hret
      cases this
      exact ⟨hwf, v, hi⟩
    · obtain ⟨t2, slot2, hret2, hslot, _, hwf2⟩ := operatorIndex_absent hwf hs
      have := Returns.unique hret2 hret
      cases this
      exact ⟨hwf2, default, hslot⟩
  refine ⟨?_, ?_, ?_⟩
  · rintro v ⟨i, hi⟩
    exact ⟨i, operatorIndex_stored (x := (k, v)) hwf hi, by simp [readRef, hi]⟩
  · intro hs
    obtain ⟨t1, slot, hret, hslot, hadd, hwf1⟩ := operatorIndex_absent hwf hs
    exact ⟨t1, slot, _, hret, by simp [readRef, hslot], find_stored hwf1 hslot,
      (found_iterator hslot).2, hadd.size⟩
  · intro t1 slot value hret
    obtain ⟨hwf1, v, hslot⟩ := hkey t1 slot hret
    have hnew := writeRef_stored hslot value
    exact ⟨slot, operatorIndex_stored (x := (k, value)) (hwf1.writeRef slot value) hnew,
      by simp [readRef, hnew]⟩

/-- Witness of C7 (concrete scenario 3): `operator[](5)` on the default-constructed table. -/
theorem C7_indexed_access_witness :
    Reachable sampleHash (construct : Table Nat Nat) ∧
    ((∀ v, (construct : Table Nat Nat).holds 5 v → ∃ slot,
      Returns (fun fuel => operatorIndex sampleHash fuel (construct : Table Nat Nat) 5)
        (construct, slot) ∧ readRef (construct : Table Nat Nat) slot = some v) ∧
    (¬ (construct : Table Nat Nat).stores 5 → ∃ t1 slot it,
      Returns (fun fuel => operatorIndex sampleHash fuel (construct : Table Nat Nat) 5)
        (t1, slot) ∧
      readRef t1 slot = some default ∧ Returns (fun fuel => find sampleHash fuel t1 5) it ∧
      t1.deref it = some (5, default) ∧ size t1 = size (construct : Table Nat Nat) + 1) ∧
    (∀ t1 slot value,
      Returns (fun fuel => operatorIndex sampleHash fuel (construct : Table Nat Nat) 5)
        (t1, slot) →
      ∃ slot2, Returns (fun fuel => operatorIndex sampleHash fuel (writeRef t1 slot value) 5)
          (writeRef t1 slot value, slot2) ∧
        readRef (writeRef t1 slot value) slot2 = some value)) :=
  ⟨Reachable.construct, C7_indexed_access sampleHash construct Reachable.construct 5⟩

/-- C8 (read-only access fails exactly on absent keys): on a reachable table `at(k)`
terminates; its outcome is the `std::out_of_range` exception exactly when `k` is in no slot,
and the stored value when `k` is stored.  `at` is a `const` member: it returns no table. -/
theorem C8_at_fails_iff_absent (hash : K → Nat) (t : Table K V) (hr : Reachable hash t)
    (k : K) :
    ∃ r, Returns (fun fuel => atKey hash fuel t k) r ∧
      (r = AtResult.out_of_range ↔ ¬ t.stores k) ∧
      (∀ v, t.holds k v → r = AtResult.value v) := by
  have hwf := hr.wf
  by_cases hs : t.stores k
  · obtain ⟨i, v, hi⟩ := hs
    refine ⟨AtResult.value v, atKey_stored (x := (k, v)) hwf hi, ?_, ?_⟩
    · constructor
      · intro h
        cases h
      · intro h
        exact absurd ⟨i, v, hi⟩ h
    · rintro w ⟨j, hj⟩
      have := hwf.inv.uniq i j (k, v) (k, w) hi hj rfl
      subst this
      rw [hi] at hj
      cases hj
      rfl
  · refine ⟨AtResult.out_of_range, atKey_absent hwf hs, ?_, ?_⟩
    · exact ⟨fun _ => hs, fun _ => rfl⟩
    · rintro v ⟨i, hi⟩
      exact absurd ⟨i, v, hi⟩ hs

/-- Witness of C8: `at(1)` on `sample3`. -/
theorem C8_at_fails_iff_absent_witness :
    Reachable sampleHash sample3 ∧
    ∃ r, Returns (fun fuel => atKey sampleHash fuel sample3 1) r ∧
      (r = AtResult.out_of_range ↔ ¬ sample3.stores 1) ∧
      (∀ v, sample3.holds 1 v → r = AtResult.value v) :=
  ⟨sample3_reachable, C8_at_fails_iff_absent sampleHash sample3 sample3_reachable 1⟩

/-- C9 (erase of an absent key is a silent no-op): on a reachable table `erase(k)` of a key
that is in no slot terminates with the very same table: vectors and counter unchanged. -/
theorem C9_erase_absent_noop (hash : K → Nat) (t : Table K V) (hr : Reachable hash t) (k : K)
    (hk : ¬ t.stores k) : Returns (fun fuel => erase hash fuel t k) t :=
  erase_absent hr.wf hk

/-- Witness of C9: key 9 erased from `sample3`. -/
theorem C9_erase_absent_noop_witness :
    Reachable sampleHash sample3 ∧ ¬ sample3.stores 9 ∧
    Returns (fun fuel => erase sampleHash fuel sample3 9) sample3 :=
  ⟨sample3_reachable, fun h => absurd (stores_iff_hasKey.1 h) (by decide),
    C9_erase_absent_noop sampleHash sample3 sample3_reachable 9
      (fun h => absurd (stores_iff_hasKey.1 h) (by decide))⟩

/-- C10 (insert of a new key adds exactly one entry): on a reachable table `insert(k, v)` of
a key that is in no slot terminates with `size()` one more than before, and with one more
occupied slot; the statement covers the inserts that call `rebuild`. -/
theorem C10_insert_adds_one (hash : K → Nat) (t : Table K V) (hr : Reachable hash t) (k : K)
    (v : V) (hk : ¬ t.stores k) :
    ∃ t1, Returns (fun fuel => insert hash fuel t (k, v)) t1 ∧ size t1 = size t + 1 ∧
      occupied t1.psl_ = occupied t.psl_ + 1 := by
  obtain ⟨t1, hrun, hadd, _, _⟩ := insert_fresh (x := (k, v)) hr.wf hk
  exact ⟨t1, hrun, hadd.size, by rw [← hadd.count, hadd.size, hr.wf.count]⟩

/-- Witness of C10: key 3 inserted into `sample2`, which rebuilds to capacity 8. -/
theorem C10_insert_adds_one_witness :
    Reachable sampleHash sample2 ∧ ¬ sample2.stores 3 ∧
    ∃ t1, Returns (fun fuel => insert sampleHash fuel sample2 (3, 30)) t1 ∧
      size t1 = size sample2 + 1 ∧ occupied t1.psl_ = occupied sample2.psl_ + 1 :=
  ⟨sample2_reachable, fun h => absurd (stores_iff_hasKey.1 h) (by decide),
    C10_insert_adds_one sampleHash sample2 sample2_reachable 3 30
      (fun h => absurd (stores_iff_hasKey.1 h) (by decide))⟩

end Claims

/-! ## Lookups, sequences of inserts and `rebuild` on a well-formed table -/

section Frame

variable {K V : Type} [DecidableEq K] {hash : K → Nat}

theorem lookup_mono (hash : K → Nat) (t : Table K V) (key : K) :
    Mono (fun fuel => lookup hash fuel t key) := by
  intro n r h
  simp only [lookup] at h ⊢
  cases hf : find hash n t key with
  | none => simp [hf] at h
  | some it =>
    have hf1 : find hash (n + 1) t key = some it := find_mono hash t key n it hf
    rw [hf1]
    rw [hf] at h
    exact h

theorem insertAll_mono (hash : K → Nat) (pairs : List (K × V)) :
    ∀ t : Table K V, Mono (fun fuel => insertAll hash fuel t pairs) := by
  induction pairs with
  | nil =>
    intro t n r h
    simpa [insertAll] using h
  | cons x xs ih =>
    intro t n r h
    simp only [insertAll] at h ⊢
    cases hi : insert hash n t x with
    | none => simp [hi] at h
    | some t1 =>
      have hi1 : insert hash (n + 1) t x = some t1 := insert_mono hash t x n t1 hi
      rw [hi1]
      rw [hi] at h
      exact ih t1 n r h

theorem capacityTrace_mono (hash : K → Nat) (pairs : List (K × V)) :
    ∀ t : Table K V, Mono (fun fuel => capacityTrace hash fuel t pairs) := by
  induction pairs with
  | nil =>
    intro t n r h
    simpa [capacityTrace] using h
  | cons x xs ih =>
    intro t n r h
    simp only [capacityTrace] at h ⊢
    cases hi : insert hash n t x with
    | none => simp [hi] at h
    | some t1 =>
      have hi1 : insert hash (n + 1) t x = some t1 := insert_mono hash t x n t1 hi
      rw [hi1]
      rw [hi] at h
      simp only at h ⊢
      cases hc : capacityTrace hash n t1 xs with
      | none => simp [hc] at h
      | some caps =>
        have hc1 : capacityTrace hash (n + 1) t1 xs = some caps := ih t1 n caps hc
        rw [hc1]
        rw [hc] at h
        exact h

/-- On a well-formed table the lookup of a key terminates with the one node of that key, or
with nothing when the key is in no slot. -/
theorem lookup_spec {t : Table K V} (h : WF hash t) (key : K) :
    ∃ r, Returns (fun fuel => lookup hash fuel t key) r ∧
      ∀ x, r = some x ↔ (x.1 = key ∧ ∃ i : Nat, t.data_[i]? = some (some x)) := by
  by_cases hs : t.stores key
  · obtain ⟨i, v, hi⟩ := hs
    obtain ⟨N, hN⟩ := find_stored (x := (key, v)) h hi
    refine ⟨some (key, v), ⟨N, fun fuel hfuel => ?_⟩, ?_⟩
    · simp only [lookup, hN fuel hfuel, Option.map_some', (found_iterator hi).2]
    · intro x
      constructor
      · intro hx
        cases hx
        exact ⟨rfl, i, hi⟩
      · rintro ⟨hk, j, hj⟩
        have := h.inv.uniq i j (key, v) x hi hj hk.symm
        subst this
        rw [hi] at hj
        cases hj
        rfl
  · obtain ⟨N, hN⟩ := find_absent h hs
    refine ⟨none, ⟨N, fun fuel hfuel => ?_⟩, ?_⟩
    · simp only [lookup, hN fuel hfuel, Option.map_some', Table.deref_end]
    · intro x
      constructor
      · intro hx
        cases hx
      · rintro ⟨hk, j, hj⟩
        obtain ⟨k, v⟩ := x
        simp only at hk
        subst hk
        exact absurd ⟨j, v, hj⟩ hs

/-- Two well-formed tables that hold the same nodes of a key give the same lookup of it. -/
theorem lookup_congr {t t1 : Table K V} (h : WF hash t) (h1 : WF hash t1) (key : K)
    (hsame : ∀ x : K × V, x.1 = key →
      ((∃ i : Nat, t1.data_[i]? = some (some x)) ↔ ∃ i : Nat, t.data_[i]? = some (some x))) :
    ∃ r, Returns (fun fuel => lookup hash fuel t key) r ∧
      Returns (fun fuel => lookup hash fuel t1 key) r := by
  obtain ⟨r, hr, hspec⟩ := lookup_spec h key
  obtain ⟨r1, hr1, hspec1⟩ := lookup_spec h1 key
  have : r1 = r := by
    apply Option.ext
    intro x
    rw [Option.mem_def, Option.mem_def, hspec x, hspec1 x]
    constructor
    · rintro ⟨hk, hx⟩
      exact ⟨hk, (hsame x hk).1 hx⟩
    · rintro ⟨hk, hx⟩
      exact ⟨hk, (hsame x hk).2 hx⟩
  subst this
  exact ⟨r1, hr, hr1⟩

/-- On a well-formed table `rebuild` terminates without growing, with a well-formed table
that holds the same nodes. -/
theorem rebuild_spec {t : Table K V} (h : WF hash t) :
    ∃ t1, Returns (fun fuel => rebuild hash fuel t) t1 ∧ WF hash t1 ∧
      t1.data_.length = t.data_.length ∧
      ∀ y, (∃ i : Nat, t1.data_[i]? = some (some y)) ↔ ∃ i : Nat, t.data_[i]? = some (some y) := by
  have hno : ¬ 3 * t.data_.length < 5 * t.size_ := by
    have := h.load
    omega
  obtain ⟨t1, hre, hinv, hcount, hsize, hmem, hlen⟩ :=
    reinsertAll_spec t.psl_ t.data_
      ⟨List.replicate t.data_.length none, List.replicate t.data_.length none, 0⟩
      (Inv.replicate hash h.inv.pos) (occupied_replicate t.data_.length).symm h.inv.len
      h.inv.sync h.inv.uniq (fun i j y z hy => absurd hy getElem?_replicate_none_ne)
      (by
        have := h.load
        simp only [← h.count, List.length_replicate]
        omega)
  simp only [List.length_replicate] at hre hlen
  refine ⟨t1, ⟨t.data_.length + 1, fun fuel hfuel => ?_⟩, ⟨hinv, hcount, ?_⟩, hlen, ?_⟩
  · obtain ⟨fuel, rfl⟩ : ∃ f, fuel = f + 1 := ⟨fuel - 1, by omega⟩
    simp [rebuild, rebuildWith, growLoop, overloaded, hno, hre (fuel + 1) (by omega)]
  · have := h.load
    rw [hsize, hlen, ← h.count]
    simp only [Nat.zero_add]
    exact this
  · intro y
    rw [hmem y]
    constructor
    · rintro (⟨i, hi⟩ | hy)
      · exact absurd hi getElem?_replicate_none_ne
      · exact hy
    · exact Or.inr

end Frame

section SequencesPlain

variable {K V : Type} {hash : K → Nat}

/-- Two well-formed tables that hold the same nodes have the same `size_`. -/
theorem size_eq_of_same_nodes {t t1 : Table K V} (h : WF hash t) (h1 : WF hash t1)
    (hsame : ∀ x : K × V, (∃ i : Nat, t1.data_[i]? = some (some x)) ↔
      ∃ i : Nat, t.data_[i]? = some (some x)) : t1.size_ = t.size_ := by
  rw [h.count, h1.count, ← reduceOption_length_eq_occupied _ _ h.inv.len h.inv.sync,
    ← reduceOption_length_eq_occupied _ _ h1.inv.len h1.inv.sync]
  apply List.Perm.length_eq
  rw [List.perm_ext_iff_of_nodup
    (List.Nodup.of_map Prod.fst (reduceOption_keys_nodup _ h1.inv.uniq))
    (List.Nodup.of_map Prod.fst (reduceOption_keys_nodup _ h.inv.uniq))]
  intro x
  rw [List.reduceOption_mem_iff, List.reduceOption_mem_iff, List.mem_iff_getElem?,
    List.mem_iff_getElem?]
  exact hsame x

/-- The backward-shift loop terminates when started at an occupied slot of a well-formed
table. -/
theorem shiftLoop_returns {t : Table K V} (h : WF hash t) {i0 q : Nat}
    (hp : t.psl_[i0]? = some (some q)) :
    ∃ r, Returns (fun fuel => shiftLoop fuel (t.data_.set i0 none) (t.psl_.set i0 none) i0
      (advance i0 t.data_.length)) r := by
  have hinv := h.inv
  have hi0 : i0 < t.data_.length := hinv.len ▸ (List.getElem?_eq_some.1 hp).1
  have hroom : occupied t.psl_ < t.psl_.length := by
    have := h.load
    have := hinv.pos
    rw [← h.count, hinv.len]
    omega
  obtain ⟨i1, hi1⟩ := exists_vacant hroom
  have hi1lt : i1 < t.data_.length := hinv.len ▸ (List.getElem?_eq_some.1 hi1).1
  have hne : i1 ≠ i0 := by
    rintro rfl
    rw [hp] at hi1
    simp at hi1
  obtain ⟨e, hen, hmod⟩ := exists_distance hi1lt hi0
  have he0 : e ≠ 0 := by
    rintro rfl
    rw [Nat.add_zero, Nat.mod_eq_of_lt hi0] at hmod
    exact hne hmod.symm
  obtain ⟨e, rfl⟩ : ∃ e1, e = e1 + 1 := ⟨e - 1, by omega⟩
  have hvac : (t.psl_.set i0 none)[(i0 + (e + 1)) % (t.data_.set i0 none).length]? =
      some none := by
    rw [List.length_set, hmod, List.getElem?_set_ne (Ne.symm hne)]
    exact hi1
  have hhole : Hole hash (t.data_.set i0 none) (t.psl_.set i0 none) i0 := hinv.hole hp
  obtain ⟨data1, psl1, index1, hrun, _⟩ :=
    shiftLoop_spec e _ _ i0 hhole (by rw [List.length_set]; exact hen) hvac
  refine ⟨(data1, psl1, index1), e + 1, fun fuel hfuel => ?_⟩
  have := hrun fuel (by omega)
  rw [List.length_set] at this
  exact this

end SequencesPlain

section Sequences

variable {K V : Type} [DecidableEq K] {hash : K → Nat}

/-- A sequence of inserts into a well-formed table terminates with a well-formed table whose
nodes are those of the table and, for each key that the table did not store, the first pair
of the sequence with that key. -/
theorem insertAll_spec (pairs : List (K × V)) : ∀ t : Table K V, WF hash t →
    ∃ t1, Returns (fun fuel => insertAll hash fuel t pairs) t1 ∧ WF hash t1 ∧
      ∀ x : K × V, (∃ i : Nat, t1.data_[i]? = some (some x)) ↔
        ((∃ i : Nat, t.data_[i]? = some (some x)) ∨
          (¬ t.stores x.1 ∧ pairs.find? (fun y => decide (y.1 = x.1)) = some x)) := by
  induction pairs with
  | nil =>
    intro t hwf
    refine ⟨t, ⟨0, fun fuel _ => by simp [insertAll]⟩, hwf, fun x => ?_⟩
    simp
  | cons x0 xs ih =>
    intro t hwf
    by_cases hs : t.stores x0.1
    · obtain ⟨i0, v0, hi0⟩ := hs
      obtain ⟨N1, h1⟩ := (insert_stored (x := (x0.1, v0)) hwf x0.2 hi0).2
      obtain ⟨t1, ⟨N2, h2⟩, hwf1, hmem⟩ := ih t hwf
      refine ⟨t1, ⟨N1 + N2, fun fuel hfuel => ?_⟩, hwf1, fun x => ?_⟩
      · have := h1 fuel (by omega)
        simp only [Prod.mk.eta] at this
        simp only [insertAll, this]
        exact h2 fuel (by omega)
      · rw [hmem x]
        constructor
        · rintro (h | ⟨hn, hf⟩)
          · exact Or.inl h
          · refine Or.inr ⟨hn, ?_⟩
            have hne : ¬ x0.1 = x.1 := fun e => hn (e ▸ ⟨i0, v0, hi0⟩)
            simpa [List.find?_cons, hne] using hf
        · rintro (h | ⟨hn, hf⟩)
          · exact Or.inl h
          · refine Or.inr ⟨hn, ?_⟩
            have hne : ¬ x0.1 = x.1 := fun e => hn (e ▸ ⟨i0, v0, hi0⟩)
            simpa [List.find?_cons, hne] using hf
    · obtain ⟨t0, ⟨N1, h1⟩, hadd, hwf0, _⟩ := insert_fresh (x := x0) hwf hs
      obtain ⟨t1, ⟨N2, h2⟩, hwf1, hmem⟩ := ih t0 hwf0
      have hstores0 : ∀ k, t0.stores k ↔ (t.stores k ∨ k = x0.1) := by
        intro k
        constructor
        · rintro ⟨i, v, hi⟩
          rcases (hadd.mem (k, v)).1 ⟨i, hi⟩ with ⟨j, hj⟩ | hx
          · exact Or.inl ⟨j, v, hj⟩
          · exact Or.inr (by rw [← hx])
        · rintro (⟨i, v, hi⟩ | rfl)
          · obtain ⟨j, hj⟩ := (hadd.mem (k, v)).2 (Or.inl ⟨i, hi⟩)
            exact ⟨j, v, hj⟩
          · obtain ⟨j, hj⟩ := (hadd.mem x0).2 (Or.inr rfl)
            exact ⟨j, x0.2, hj⟩
      refine ⟨t1, ⟨N1 + N2, fun fuel hfuel => ?_⟩, hwf1, fun x => ?_⟩
      · simp only [insertAll, h1 fuel (by omega)]
        exact h2 fuel (by omega)
      · rw [hmem x, hadd.mem x, hstores0 x.1]
        by_cases hk : x0.1 = x.1
        · have hnx : ¬ t.stores x.1 := hk ▸ hs
          simp only [List.find?_cons, hk, decide_True, Option.some.injEq]
          constructor
          · rintro ((h | rfl) | ⟨hn, _⟩)
            · exact Or.inl h
            · exact Or.inr ⟨hnx, rfl⟩
            · exact absurd (Or.inr trivial) hn
          · rintro (h | ⟨_, rfl⟩)
            · exact Or.inl (Or.inl h)
            · exact Or.inl (Or.inr rfl)
        · simp only [List.find?_cons, hk, decide_False]
          constructor
          · rintro ((h | rfl) | ⟨hn, hf⟩)
            · exact Or.inl h
            · exact absurd rfl hk
            · exact Or.inr ⟨fun h => hn (Or.inl h), hf⟩
          · rintro (h | ⟨hn, hf⟩)
            · exact Or.inl (Or.inl h)
            · refine Or.inr ⟨?_, hf⟩
              rintro (h | h)
              · exact hn h
              · exact hk h.symm

/-- The doubling loop of `rebuild` stops at the first doubling that is not overloaded. -/
theorem growLoop_least (size : Nat) : ∀ (m c : Nat), 0 < c → 5 * size ≤ 3 * c + m →
    ∃ j, (∀ fuel, m < fuel → growLoop fuel c size = some (c * 2 ^ j)) ∧
      5 * size ≤ 3 * (c * 2 ^ j) ∧ ∀ j1, j1 < j → 3 * (c * 2 ^ j1) < 5 * size := by
  intro m
  induction m with
  | zero =>
    intro c _ h
    refine ⟨0, ?_, by simpa using h, fun j1 hj1 => absurd hj1 (Nat.not_lt_zero _)⟩
    intro fuel hfuel
    obtain ⟨fuel, rfl⟩ : ∃ f, fuel = f + 1 := ⟨fuel - 1, by omega⟩
    have : ¬ 3 * c < 5 * size := by omega
    simp [growLoop, overloaded, this]
  | succ m ih =>
    intro c hpos h
    by_cases hover : 3 * c < 5 * size
    · obtain ⟨j, hrun, hfit, hleast⟩ := ih (2 * c) (by omega) (by omega)
      have hpow : ∀ n, c * 2 ^ (n + 1) = 2 * c * 2 ^ n := fun n => by ring
      refine ⟨j + 1, ?_, by rw [hpow]; exact hfit, ?_⟩
      · intro fuel hfuel
        obtain ⟨fuel, rfl⟩ : ∃ f, fuel = f + 1 := ⟨fuel - 1, by omega⟩
        simp only [growLoop, overloaded, hover, decide_True, if_true]
        rw [hpow]
        exact hrun fuel (by omega)
      · intro j1 hj1
        cases j1 with
        | zero => simpa using hover
        | succ j1 =>
          rw [hpow]
          exact hleast j1 (by omega)
    · refine ⟨0, ?_, by simpa using (by omega : 5 * size ≤ 3 * c),
        fun j1 hj1 => absurd hj1 (Nat.not_lt_zero _)⟩
      intro fuel hfuel
      obtain ⟨fuel, rfl⟩ : ∃ f, fuel = f + 1 := ⟨fuel - 1, by omega⟩
      simp [growLoop, overloaded, hover]

/-- The capacity after `insert` of a key that is in no slot of a well-formed table: the
former capacity doubled the least number of times that makes room for one more node. -/
theorem insert_fresh_grow {t : Table K V} {x : K × V} (hwf : WF hash t)
    (habs : ¬ t.stores x.1) :
    ∃ t1 j, Returns (fun fuel => insert hash fuel t x) t1 ∧
      t1.data_.length = t.data_.length * 2 ^ j ∧
      5 * (t.size_ + 1) ≤ 3 * (t.data_.length * 2 ^ j) ∧
      ∀ j1, j1 < j → 3 * (t.data_.length * 2 ^ j1) < 5 * (t.size_ + 1) := by
  have hpos := hwf.inv.pos
  have hroom : occupied t.psl_ < t.data_.length := by
    have := hwf.load
    rw [← hwf.count]
    omega
  obtain ⟨data1, psl1, index1, c1, x1, hrun, hinv1, hmem, hocc, hlen⟩ :=
    insertLoop_fresh hwf.inv (not_stores_iff.1 habs) hroom
  by_cases hover : 3 * data1.length < 5 * (t.size_ + 1)
  · obtain ⟨j, hgrow, hfit, hleast⟩ :=
      growLoop_least (t.size_ + 1) (5 * (t.size_ + 1)) data1.length (by omega) (by omega)
    have hcpos : 0 < data1.length * 2 ^ j := Nat.mul_pos (by omega) (by positivity)
    obtain ⟨t1, hre, _, _, _, _, hlen2⟩ :=
      reinsertAll_spec (psl1.set index1 (some c1)) (data1.set index1 (some x1))
        ⟨List.replicate (data1.length * 2 ^ j) none, List.replicate (data1.length * 2 ^ j) none,
          0⟩
        (Inv.replicate hash hcpos) (occupied_replicate _).symm hinv1.len
        hinv1.sync hinv1.uniq
        (fun i j y z hy => absurd hy getElem?_replicate_none_ne)
        (by simp only [hocc, ← hwf.count, List.length_replicate]; omega)
    simp only [List.length_replicate] at hre hlen2
    refine ⟨t1, j, ⟨t.data_.length + 5 * (t.size_ + 1) + data1.length * 2 ^ j + 2, ?_⟩,
      by rw [hlen2, hlen], by rw [← hlen]; exact hfit,
      fun j1 hj1 => by rw [← hlen]; exact hleast j1 hj1⟩
    intro fuel hfuel
    obtain ⟨fuel, rfl⟩ : ∃ f, fuel = f + 1 := ⟨fuel - 1, by omega⟩
    have h1 := hgrow fuel (by omega)
    have h2 := hre fuel (by omega)
    simp [insert, insertNode, hrun fuel (by omega), overloaded, hover, rebuildWith, h1, h2]
  · refine ⟨⟨data1.set index1 (some x1), psl1.set index1 (some c1), t.size_ + 1⟩, 0,
      ⟨t.data_.length + 1, ?_⟩, by simp [hlen], by rw [← hlen]; simp; omega,
      fun j1 hj1 => absurd hj1 (Nat.not_lt_zero _)⟩
    intro fuel hfuel
    obtain ⟨fuel, rfl⟩ : ∃ f, fuel = f + 1 := ⟨fuel - 1, by omega⟩
    simp [insert, insertNode, hrun fuel (by omega), overloaded, hover]

end Sequences

/-! ## Reachability of the tables of concrete scenario 2 -/

theorem scenario2_reachable : Reachable hashMod8 scenario2 :=
  Reachable.insert ⟨[some (0, 0), some (8, 80), none, none], [some 0, some 1, none, none], 2⟩
    scenario2 8 (16, 160)
    (Reachable.insert ⟨[some (0, 0), none], [some 0, none], 1⟩
      ⟨[some (0, 0), some (8, 80), none, none], [some 0, some 1, none, none], 2⟩ 8 (8, 80)
      (Reachable.insert construct ⟨[some (0, 0), none], [some 0, none], 1⟩ 8 (0, 0)
        Reachable.construct (by decide!))
      (by decide!))
    (by decide!)

theorem wrapSample_reachable : Reachable hashMod8 wrapSample :=
  Reachable.insert ⟨[some (7, 70), none, none, some (15, 150)], [some 1, none, none, some 0], 2⟩
    wrapSample 8 (1, 10)
    (Reachable.insert ⟨[none, some (7, 70)], [none, some 0], 1⟩
      ⟨[some (7, 70), none, none, some (15, 150)], [some 1, none, none, some 0], 2⟩ 8 (15, 150)
      (Reachable.insert construct ⟨[none, some (7, 70)], [none, some 0], 1⟩ 8 (7, 70)
        Reachable.construct (by decide!))
      (by decide!))
    (by decide!)

/-! ## The claims on `clear`, the moves and concrete scenario 2 -/

section ClaimsPlain

variable {K V : Type} [DecidableEq K]

/-- C11, as the claim states it for every table, fails: on the table that the move
constructor leaves behind as the source of `sample3` (its `data_` is empty, capacity 0),
`clear()` keeps the capacity at 0, and `find(1)` on the result, which computes
`hash % data_.size()` and reads `psl_` of an empty vector, does not terminate with `end()`. -/
theorem C11_clear_counterexample :
    ¬ ((∀ i : Nat, i < (moveConstruct sample3).2.data_.length →
        (clear (moveConstruct sample3).2).data_[i]? = some none ∧
        (clear (moveConstruct sample3).2).psl_[i]? = some none) ∧
      size (clear (moveConstruct sample3).2) = 0 ∧
      (∀ k, Returns (fun fuel => find sampleHash fuel (clear (moveConstruct sample3).2) k)
        (clear (moveConstruct sample3).2).end_) ∧
      (clear (moveConstruct sample3).2).data_.length = (moveConstruct sample3).2.data_.length ∧
      (clear (moveConstruct sample3).2).psl_.length =
        (moveConstruct sample3).2.data_.length) := by
  rintro ⟨_, _, hfind, _, _⟩
  obtain ⟨N, hN⟩ := hfind 1
  have hnone : find sampleHash N (clear (moveConstruct sample3).2) 1 = none := by
    cases N with
    | zero => rfl
    | succ n => rfl
  have hsome : find sampleHash N (clear (moveConstruct sample3).2) 1 =
      some (clear (moveConstruct sample3).2).end_ := hN N (Nat.le_refl N)
  rw [hnone] at hsome
  exact Option.noConfusion hsome

/-- C11, amended (`clear()` empties without shrinking): for every table of capacity at least
1, whatever its contents, after `clear()` every slot is vacant in both vectors, `size()` is 0,
`find(k)` terminates with `end()` for every key `k`, and the capacity is the one before the
call. -/
theorem C11_clear_keeps_capacity (hash : K → Nat) (t : Table K V) (hcap : 0 < t.data_.length) :
    (∀ i : Nat, i < t.data_.length →
      (clear t).data_[i]? = some none ∧ (clear t).psl_[i]? = some none) ∧
    size (clear t) = 0 ∧
    (∀ k, Returns (fun fuel => find hash fuel (clear t) k) (clear t).end_) ∧
    (clear t).data_.length = t.data_.length ∧ (clear t).psl_.length = t.data_.length := by
  have hwf : WF hash (clear t) := by
    rw [clear_eq]
    exact ⟨Inv.replicate hash hcap, (occupied_replicate t.data_.length).symm, by simp⟩
  have habs : ∀ k, ¬ (clear t).stores k := by
    rintro k ⟨i, v, hi⟩
    rw [clear_eq] at hi
    exact getElem?_replicate_none_ne hi
  refine ⟨?_, by simp [size, clear_eq], fun k => find_absent hwf (habs k),
    by simp [clear_eq], by simp [clear_eq]⟩
  intro i hi
  rw [clear_eq]
  simp [List.getElem?_replicate, hi]

/-- Witness of C11, amended: `clear()` on `sample3`, of capacity 8. -/
theorem C11_clear_keeps_capacity_witness :
    0 < sample3.data_.length ∧
    ((∀ i : Nat, i < sample3.data_.length →
      (clear sample3).data_[i]? = some none ∧ (clear sample3).psl_[i]? = some none) ∧
    size (clear sample3) = 0 ∧
    (∀ k, Returns (fun fuel => find sampleHash fuel (clear sample3) k) (clear sample3).end_) ∧
    (clear sample3).data_.length = sample3.data_.length ∧
    (clear sample3).psl_.length = sample3.data_.length) :=
  ⟨by decide, C11_clear_keeps_capacity sampleHash sample3 (by decide)⟩

end ClaimsPlain

section ClaimsMove

variable {K V : Type}

/-- C13, as the claim states it, fails: after the move construction from `sample1`, which
holds one node, `size()` of the source is still 1 and `empty()` is false. -/
theorem C13_move_source_counterexample :
    ¬ (size (moveConstruct sample1).2 = 0 ∧ empty (moveConstruct sample1).2 = true) := by
  decide

/-- C13, amended: after the move construction or the move assignment of a table `D` from
another table `S`, `D` has the former members of `S` (same slots, probe lengths, capacity and
size), and the vector `data_` of `S` is empty, so `S` owns no node. -/
theorem C13_move_transfers (S D0 : Table K V) :
    (moveConstruct S).1 = S ∧ (moveConstruct S).2.data_ = [] ∧
    (moveAssign D0 S).1 = S ∧ (moveAssign D0 S).2.data_ = [] :=
  ⟨rfl, rfl, rfl, rfl⟩

end ClaimsMove

/-- C14 (concrete scenario 2): with `hash(k) = k mod 8`, the inserts of 0, 8 and 16 into the
default-constructed table terminate with a table of capacity 8 whose slots 0, 1, 2 hold the
keys 0, 8, 16 with probe lengths 0, 1, 2 and whose slots 3..7 are vacant; `erase(8)` on it
terminates with key 0 in slot 0 (probe length 0), key 16 in slot 1 (probe length 1), slots
2..7 vacant and size 2. -/
theorem C14_scenario2 :
    Returns (fun fuel => insertAll hashMod8 fuel (construct : Table Nat Nat)
        [(0, 0), (8, 80), (16, 160)])
      ⟨[some (0, 0), some (8, 80), some (16, 160), none, none, none, none, none],
       [some 0, some 1, some 2, none, none, none, none, none], 3⟩ ∧
    Returns (fun fuel => erase hashMod8 fuel
        (⟨[some (0, 0), some (8, 80), some (16, 160), none, none, none, none, none],
          [some 0, some 1, some 2, none, none, none, none, none], 3⟩ : Table Nat Nat) 8)
      ⟨[some (0, 0), some (16, 160), none, none, none, none, none, none],
       [some 0, some 1, none, none, none, none, none, none], 2⟩ :=
  ⟨Returns.of_eq (n := 8) (insertAll_mono hashMod8 _ _) (by decide!),
    Returns.of_eq (n := 8) (erase_mono hashMod8 _ 8) (by decide!)⟩

/-! ## The claims on frames and invariants -/

section ClaimsFrame

variable {K V : Type} [DecidableEq K] [Inhabited V]

/-- C15 (insert does not disturb other keys): on a reachable table, `insert(k, v)` terminates
and, for every other key `k'`, the table afterwards holds `(k', v')` exactly when the table
before did, and the lookup of `k'` terminates with the same outcome (the same node, or
nothing) on both.  The statement covers the inserts that swap residents and those that call
`rebuild`. -/
theorem C15_insert_frame (hash : K → Nat) (t : Table K V) (hr : Reachable hash t) (k k' : K)
    (v : V) (hne : k ≠ k') :
    ∃ t1, Returns (fun fuel => insert hash fuel t (k, v)) t1 ∧
      (∀ v', t1.holds k' v' ↔ t.holds k' v') ∧
      ∃ r, Returns (fun fuel => lookup hash fuel t k') r ∧
        Returns (fun fuel => lookup hash fuel t1 k') r := by
  have hwf := hr.wf
  by_cases hs : t.stores k
  · obtain ⟨i, v0, hi⟩ := hs
    obtain ⟨r, hret, _⟩ := lookup_spec hwf k'
    exact ⟨t, (insert_stored hwf v hi).2, fun _ => Iff.rfl, r, hret, hret⟩
  · obtain ⟨t1, hrun, hadd, hwf1, _⟩ := insert_fresh (x := (k, v)) hwf hs
    have hsame : ∀ x : K × V, x.1 = k' →
        ((∃ i : Nat, t1.data_[i]? = some (some x)) ↔ ∃ i : Nat, t.data_[i]? = some (some x)) := by
      intro x hx
      rw [hadd.mem x]
      constructor
      · rintro (h | rfl)
        · exact h
        · exact absurd hx hne
      · exact Or.inl
    exact ⟨t1, hrun, fun v' => hsame (k', v') rfl, lookup_congr hwf hwf1 k' hsame⟩

/-- Witness of C15: key 8 inserted into `sample3` displaces the node of key 1, whose lookup
is unchanged. -/
theorem C15_insert_frame_witness :
    Reachable sampleHash sample3 ∧ (8 : Nat) ≠ 1 ∧
    ∃ t1, Returns (fun fuel => insert sampleHash fuel sample3 (8, 80)) t1 ∧
      (∀ v', t1.holds 1 v' ↔ sample3.holds 1 v') ∧
      ∃ r, Returns (fun fuel => lookup sampleHash fuel sample3 1) r ∧
        Returns (fun fuel => lookup sampleHash fuel t1 1) r :=
  ⟨sample3_reachable, by decide,
    C15_insert_frame sampleHash sample3 sample3_reachable 8 1 80 (by decide)⟩

/-- C16 (erase does not disturb other keys): on a reachable table, `erase(k)` terminates
and, for every other key `k'`, the table afterwards holds `(k', v')` exactly when the table
before did, and the lookup of `k'` terminates with the same outcome on both: the backward
shift loses, duplicates or hides no other node. -/
theorem C16_erase_frame (hash : K → Nat) (t : Table K V) (hr : Reachable hash t) (k k' : K)
    (hne : k ≠ k') :
    ∃ t1, Returns (fun fuel => erase hash fuel t k) t1 ∧
      (∀ v', t1.holds k' v' ↔ t.holds k' v') ∧
      ∃ r, Returns (fun fuel => lookup hash fuel t k') r ∧
        Returns (fun fuel => lookup hash fuel t1 k') r := by
  have hwf := hr.wf
  by_cases hs : t.stores k
  · obtain ⟨i, v0, hi⟩ := hs
    obtain ⟨t1, hrun, hrem, hwf1⟩ := erase_stored (x := (k, v0)) hwf hi
    have hsame : ∀ x : K × V, x.1 = k' →
        ((∃ i : Nat, t1.data_[i]? = some (some x)) ↔ ∃ i : Nat, t.data_[i]? = some (some x)) := by
      intro x hx
      rw [hrem.mem x]
      constructor
      · exact fun h => h.1
      · exact fun h => ⟨h, fun hk => hne (hk.symm.trans hx)⟩
    exact ⟨t1, hrun, fun v' => hsame (k', v') rfl, lookup_congr hwf hwf1 k' hsame⟩
  · obtain ⟨r, hret, _⟩ := lookup_spec hwf k'
    exact ⟨t, erase_absent hwf hs, fun _ => Iff.rfl, r, hret, hret⟩

/-- Witness of C16: `erase(7)` on `wrapSample` shifts the node of key 15 from slot 0 back
across the end of the array into slot 7; its lookup is unchanged. -/
theorem C16_erase_frame_witness :
    Reachable hashMod8 wrapSample ∧ (7 : Nat) ≠ 15 ∧
    ∃ t1, Returns (fun fuel => erase hashMod8 fuel wrapSample 7) t1 ∧
      (∀ v', t1.holds 15 v' ↔ wrapSample.holds 15 v') ∧
      ∃ r, Returns (fun fuel => lookup hashMod8 fuel wrapSample 15) r ∧
        Returns (fun fuel => lookup hashMod8 fuel t1 15) r :=
  ⟨wrapSample_reachable, by decide,
    C16_erase_frame hashMod8 wrapSample wrapSample_reachable 7 15 (by decide)⟩

/-- C17 (PSL invariant I2): in every reachable table, the probe length of an occupied slot
`i` holding key `k` is `(i - hash(k) mod capacity + capacity) mod capacity`, computed in the
integers, and a slot has the `EMPTY` marker exactly when it holds no node. -/
theorem C17_psl_invariant (hash : K → Nat) (t : Table K V) (hr : Reachable hash t) (i : Nat) :
    (∀ (p : Nat) (k : K) (v : V), t.psl_[i]? = some (some p) →
      t.data_[i]? = some (some (k, v)) →
      (p : Int) = ((i : Int) - ((hash k % t.data_.length : Nat) : Int) + t.data_.length) %
        t.data_.length) ∧
    (t.psl_[i]? = some none ↔ t.data_[i]? = some none) := by
  have hinv := hr.wf.inv
  refine ⟨?_, hinv.sync i⟩
  intro p k v hp hd
  have hpn : p < t.data_.length := (hinv.home i p (k, v) hp hd).1
  have hhome : (hash k + p) % t.data_.length = i := (hinv.home i p (k, v) hp hd).2
  have hpos := hinv.pos
  have hh : hash k % t.data_.length < t.data_.length := Nat.mod_lt _ hpos
  have hi : i < t.data_.length := (List.getElem?_eq_some.1 hd).1
  rw [← Nat.mod_add_mod] at hhome
  have hN : p = (i + t.data_.length - hash k % t.data_.length) % t.data_.length := by
    by_cases hlt : hash k % t.data_.length + p < t.data_.length
    · rw [Nat.mod_eq_of_lt hlt] at hhome
      have : i + t.data_.length - hash k % t.data_.length = p + t.data_.length := by omega
      rw [this, Nat.add_mod_right, Nat.mod_eq_of_lt hpn]
    · rw [Nat.mod_eq_sub_mod (by omega), Nat.mod_eq_of_lt (by omega)] at hhome
      have : i + t.data_.length - hash k % t.data_.length = p := by omega
      rw [this, Nat.mod_eq_of_lt hpn]
  have hcast : ((i : Int) - ((hash k % t.data_.length : Nat) : Int) + t.data_.length) =
      ((i + t.data_.length - hash k % t.data_.length : Nat) : Int) := by omega
  rw [hcast, ← Int.natCast_mod]
  exact_mod_cast hN

/-- Witness of C17: slot 2 of the table of concrete scenario 2, whose key 16 is two slots
from its home. -/
theorem C17_psl_invariant_witness :
    Reachable hashMod8 scenario2 ∧
    ((∀ (p : Nat) (k : Nat) (v : Nat), scenario2.psl_[2]? = some (some p) →
      scenario2.data_[2]? = some (some (k, v)) →
      (p : Int) = (((2 : Nat) : Int) - ((hashMod8 k % scenario2.data_.length : Nat) : Int) +
        scenario2.data_.length) % scenario2.data_.length) ∧
    (scenario2.psl_[2]? = some none ↔ scenario2.data_[2]? = some none)) :=
  ⟨scenario2_reachable, C17_psl_invariant hashMod8 scenario2 scenario2_reachable 2⟩

/-- C18 (key uniqueness I5): in every reachable table two slots that hold nodes with the same
key are the same slot. -/
theorem C18_key_uniqueness (hash : K → Nat) (t : Table K V) (hr : Reachable hash t)
    (i j : Nat) (k : K) (v w : V) (hi : t.data_[i]? = some (some (k, v)))
    (hj : t.data_[j]? = some (some (k, w))) : i = j :=
  hr.wf.inv.uniq i j (k, v) (k, w) hi hj rfl

/-- Witness of C18: slot 1 of `sample3` against itself. -/
theorem C18_key_uniqueness_witness :
    Reachable sampleHash sample3 ∧ sample3.data_[1]? = some (some (1, 10)) ∧ 1 = 1 :=
  ⟨sample3_reachable, rfl,
    C18_key_uniqueness sampleHash sample3 sample3_reachable 1 1 1 10 10 rfl rfl⟩

end ClaimsFrame

/-! ## The claims on bulk construction, growth and termination -/

section ClaimsBulk

variable {K V : Type} [DecidableEq K]

/-- C12 (bulk construction equals repeated insert): for every finite list of pairs, inserting
the pairs one by one into the default-constructed table, the iterator-range constructor and
the initializer-list constructor (which starts from `len + 1` vacant slots) all terminate;
the three tables have the same `size()`, and the lookup of every key terminates with the same
outcome on all three: the first pair of the list with that key, or nothing when the list has
none. -/
theorem C12_bulk_construction (hash : K → Nat) (pairs : List (K × V)) :
    ∃ t0 tR tL, Returns (fun fuel => insertAll hash fuel construct pairs) t0 ∧
      Returns (fun fuel => constructRange hash fuel pairs) tR ∧
      Returns (fun fuel => constructList hash fuel pairs) tL ∧
      size tR = size t0 ∧ size tL = size t0 ∧
      ∀ k, ∃ r, Returns (fun fuel => lookup hash fuel t0 k) r ∧
        Returns (fun fuel => lookup hash fuel tR k) r ∧
        Returns (fun fuel => lookup hash fuel tL k) r ∧
        r = pairs.find? (fun x => decide (x.1 = k)) := by
  have hwfL : WF hash (⟨List.replicate (pairs.length + 1) none,
      List.replicate (pairs.length + 1) none, 0⟩ : Table K V) :=
    ⟨Inv.replicate hash (Nat.succ_pos _), (occupied_replicate _).symm, Nat.zero_le _⟩
  obtain ⟨t0, hrun0, hwf0, hmem0⟩ := insertAll_spec pairs construct (WF.construct hash)
  obtain ⟨tL, hrunL, hwfL1, hmemL⟩ := insertAll_spec pairs _ hwfL
  have hnodes0 : ∀ x : K × V, (∃ i : Nat, t0.data_[i]? = some (some x)) ↔
      pairs.find? (fun y => decide (y.1 = x.1)) = some x := by
    intro x
    rw [hmem0 x]
    constructor
    · rintro (⟨i, hi⟩ | ⟨_, hf⟩)
      · exact absurd ⟨i, x.2, hi⟩ (construct_stores_nothing x.1)
      · exact hf
    · exact fun hf => Or.inr ⟨construct_stores_nothing x.1, hf⟩
  have hnodesL : ∀ x : K × V, (∃ i : Nat, tL.data_[i]? = some (some x)) ↔
      pairs.find? (fun y => decide (y.1 = x.1)) = some x := by
    intro x
    rw [hmemL x]
    constructor
    · rintro (⟨i, hi⟩ | ⟨_, hf⟩)
      · exact absurd hi getElem?_replicate_none_ne
      · exact hf
    · refine fun hf => Or.inr ⟨?_, hf⟩
      rintro ⟨i, v, hi⟩
      exact absurd hi getElem?_replicate_none_ne
  have hsame : ∀ x : K × V, (∃ i : Nat, tL.data_[i]? = some (some x)) ↔
      ∃ i : Nat, t0.data_[i]? = some (some x) := fun x => by rw [hnodesL x, hnodes0 x]
  refine ⟨t0, t0, tL, hrun0, hrun0, hrunL, rfl, size_eq_of_same_nodes hwf0 hwfL1 hsame, ?_⟩
  intro k
  obtain ⟨r, hr0, hrL⟩ := lookup_congr hwf0 hwfL1 k (fun x _ => hsame x)
  obtain ⟨r1, hr1, hspec⟩ := lookup_spec hwf0 k
  have hrr : r1 = r := Returns.unique hr0 hr1
  subst hrr
  refine ⟨r1, hr0, hr0, hrL, ?_⟩
  apply Option.ext
  intro x
  rw [Option.mem_def, Option.mem_def, hspec x]
  constructor
  · rintro ⟨hk, hx⟩
    have := (hnodes0 x).1 hx
    rw [hk] at this
    exact this
  · intro hf
    have hk : x.1 = k := by simpa using List.find?_some hf
    refine ⟨hk, (hnodes0 x).2 ?_⟩
    rw [hk]
    exact hf

end ClaimsBulk

/-- C19 (growth policy): on a reachable table of capacity `c` and size `s`, `insert` of a key
that is in no slot terminates with capacity `c * 2 ^ j` for the least `j` with
`5 * (s + 1) ≤ 3 * (c * 2 ^ j)` (so `j = 0` and the capacity is unchanged when there is room),
`erase` terminates with the capacity unchanged, and no `insert` returns a smaller capacity.
Concrete scenario 1: the inserts of the keys 0..9 with the identity hash into the
default-constructed table give the capacities 2, 4, 8, 8, 16, 16, 16, 16, 16, 32, the final
size is 10 and the lookup of every key 0..9 finds its node. -/
theorem C19_growth_policy :
    (∀ (K V : Type) [DecidableEq K] [Inhabited V] (hash : K → Nat) (t : Table K V),
      Reachable hash t →
      (∀ (k : K) (v : V), ¬ t.stores k →
        ∃ t1 j, Returns (fun fuel => insert hash fuel t (k, v)) t1 ∧
          t1.data_.length = t.data_.length * 2 ^ j ∧
          5 * (size t + 1) ≤ 3 * (t.data_.length * 2 ^ j) ∧
          ∀ j1, j1 < j → 3 * (t.data_.length * 2 ^ j1) < 5 * (size t + 1)) ∧
      (∀ k : K, ∃ t1, Returns (fun fuel => erase hash fuel t k) t1 ∧
        t1.data_.length = t.data_.length) ∧
      (∀ (node : K × V) (t1 : Table K V) (fuel : Nat), insert hash fuel t node = some t1 →
        t.data_.length ≤ t1.data_.length)) ∧
    (Returns (fun fuel => capacityTrace sampleHash fuel (construct : Table Nat Nat)
        scenario1Pairs) [2, 4, 8, 8, 16, 16, 16, 16, 16, 32] ∧
      ∃ t10, Returns (fun fuel => insertAll sampleHash fuel (construct : Table Nat Nat)
          scenario1Pairs) t10 ∧
        size t10 = 10 ∧ t10.data_.length = 32 ∧
        ∀ k, k < 10 → Returns (fun fuel => lookup sampleHash fuel t10 k) (some (k, 10 * k))) := by
  constructor
  · intro K V _ _ hash t hr
    have hwf := hr.wf
    refine ⟨fun k v hk => insert_fresh_grow (x := (k, v)) hwf hk, ?_, ?_⟩
    · intro k
      by_cases hs : t.stores k
      · obtain ⟨i, v, hi⟩ := hs
        obtain ⟨t1, hrun, hrem, _⟩ := erase_stored (x := (k, v)) hwf hi
        exact ⟨t1, hrun, hrem.len⟩
      · exact ⟨t, erase_absent hwf hs, rfl⟩
    · intro node t1 fuel hrun
      by_cases hs : t.stores node.1
      · obtain ⟨i, v, hi⟩ := hs
        have hret := (insert_stored (x := (node.1, v)) hwf node.2 hi).2
        simp only [Prod.mk.eta] at hret
        rw [Returns.eq_of (insert_mono hash t node) hret hrun]
      · obtain ⟨t2, hret, _, _, hle⟩ := insert_fresh (x := node) hwf hs
        rw [Returns.eq_of (insert_mono hash t node) hret hrun]
        exact hle
  · refine ⟨Returns.of_eq (n := 6) (capacityTrace_mono sampleHash _ _) (by decide!),
      scenario1Final, Returns.of_eq (n := 6) (insertAll_mono sampleHash _ _) (by decide!),
      by decide, by decide, ?_⟩
    have hfind : ∀ k, k < 10 →
        lookup sampleHash 4 scenario1Final k = some (some (k, 10 * k)) := by decide!
    exact fun k hk => Returns.of_eq (lookup_mono sampleHash _ k) (hfind k hk)

/-- Witness of C19: key 3 inserted into `sample2` (capacity 4, size 2) doubles the capacity
once. -/
theorem C19_growth_policy_witness :
    Reachable sampleHash sample2 ∧ ¬ sample2.stores 3 ∧
    ∃ t1 j, Returns (fun fuel => insert sampleHash fuel sample2 (3, 30)) t1 ∧
      t1.data_.length = sample2.data_.length * 2 ^ j ∧
      5 * (size sample2 + 1) ≤ 3 * (sample2.data_.length * 2 ^ j) ∧
      ∀ j1, j1 < j → 3 * (sample2.data_.length * 2 ^ j1) < 5 * (size sample2 + 1) :=
  ⟨sample2_reachable, fun h => absurd (stores_iff_hasKey.1 h) (by decide),
    (C19_growth_policy.1 Nat Nat sampleHash sample2 sample2_reachable).1 3 30
      (fun h => absurd (stores_iff_hasKey.1 h) (by decide))⟩

section ClaimsTermination

variable {K V : Type} [DecidableEq K] [Inhabited V]

/-- C20 (termination): a reachable table has capacity at least 1 and a vacant slot, and on it
the probe loop of `insert` and `insert` itself terminate for every node, the probe loop of
`find` and `find` itself for every key, `erase` for every key, the backward-shift loop from
every occupied slot, the doubling loop of `rebuild` for every size, and `rebuild`. -/
theorem C20_termination (hash : K → Nat) (t : Table K V) (hr : Reachable hash t) :
    (0 < t.data_.length ∧ ∃ i : Nat, t.psl_[i]? = some none) ∧
    (∀ node : K × V,
      (∃ ex, Returns (fun fuel => insertLoop fuel t.data_ t.psl_
        (hash node.1 % t.data_.length) 0 node) ex) ∧
      ∃ t1, Returns (fun fuel => insert hash fuel t node) t1) ∧
    (∀ k : K,
      (∃ r, Returns (fun fuel => findLoop fuel t.data_ t.psl_ k
        (hash k % t.data_.length) 0) r) ∧
      ∃ it, Returns (fun fuel => find hash fuel t k) it) ∧
    (∀ k : K, ∃ t1, Returns (fun fuel => erase hash fuel t k) t1) ∧
    (∀ i p : Nat, t.psl_[i]? = some (some p) →
      ∃ r, Returns (fun fuel => shiftLoop fuel (t.data_.set i none) (t.psl_.set i none) i
        (advance i t.data_.length)) r) ∧
    (∀ s : Nat, ∃ c, Returns (fun fuel => growLoop fuel t.data_.length s) c) ∧
    ∃ t1, Returns (fun fuel => rebuild hash fuel t) t1 := by
  have hwf := hr.wf
  have hinv := hwf.inv
  have hroom : occupied t.psl_ < t.data_.length := by
    have := hwf.load
    have := hinv.pos
    rw [← hwf.count]
    omega
  refine ⟨⟨hinv.pos, exists_vacant (hinv.len ▸ hroom)⟩, ?_, ?_, ?_, ?_, ?_, ?_⟩
  · intro node
    by_cases hs : t.stores node.1
    · obtain ⟨i, v, hi⟩ := hs
      have h := insert_stored (x := (node.1, v)) hwf node.2 hi
      simp only [Prod.mk.eta] at h
      exact ⟨⟨_, h.1⟩, ⟨_, h.2⟩⟩
    · obtain ⟨data1, psl1, index1, c1, x1, hrun, _⟩ :=
        insertLoop_fresh hinv (not_stores_iff.1 hs) hroom
      obtain ⟨t1, hret, _⟩ := insert_fresh (x := node) hwf hs
      exact ⟨⟨_, t.data_.length, hrun⟩, ⟨t1, hret⟩⟩
  · intro k
    by_cases hs : t.stores k
    · obtain ⟨i, v, hi⟩ := hs
      obtain ⟨q, hp⟩ := hinv.psl_of_node hi
      refine ⟨⟨some i, q + 1, fun fuel hfuel => ?_⟩, ⟨_, find_stored (x := (k, v)) hwf hi⟩⟩
      have := findLoop_stored hinv hp hi q 0 (by omega) fuel (by omega)
      rw [Nat.add_zero] at this
      exact this
    · exact ⟨⟨none, t.data_.length + 1, fun fuel hfuel =>
        findLoop_absent hinv k (not_stores_iff.1 hs) t.data_.length 0 _
          (Nat.mod_lt _ hinv.pos) (by omega) fuel (by omega)⟩, ⟨_, find_absent hwf hs⟩⟩
  · intro k
    by_cases hs : t.stores k
    · obtain ⟨i, v, hi⟩ := hs
      obtain ⟨t1, hrun, _⟩ := erase_stored (x := (k, v)) hwf hi
      exact ⟨t1, hrun⟩
    · exact ⟨t, erase_absent hwf hs⟩
  · intro i p hp
    exact shiftLoop_returns hwf hp
  · intro s
    obtain ⟨c, hrun, _⟩ := growLoop_spec s (5 * s) t.data_.length hinv.pos (by omega)
    exact ⟨c, 5 * s + 1, fun fuel hfuel => hrun fuel (by omega)⟩
  · obtain ⟨t1, hret, _⟩ := rebuild_spec hwf
    exact ⟨t1, hret⟩

/-- Witness of C20: the loops on the table of concrete scenario 2. -/
theorem C20_termination_witness :
    Reachable hashMod8 scenario2 ∧
    ((0 < scenario2.data_.length ∧ ∃ i : Nat, scenario2.psl_[i]? = some none) ∧
    (∀ node : Nat × Nat,
      (∃ ex, Returns (fun fuel => insertLoop fuel scenario2.data_ scenario2.psl_
        (hashMod8 node.1 % scenario2.data_.length) 0 node) ex) ∧
      ∃ t1, Returns (fun fuel => insert hashMod8 fuel scenario2 node) t1) ∧
    (∀ k : Nat,
      (∃ r, Returns (fun fuel => findLoop fuel scenario2.data_ scenario2.psl_ k
        (hashMod8 k % scenario2.data_.length) 0) r) ∧
      ∃ it, Returns (fun fuel => find hashMod8 fuel scenario2 k) it) ∧
    (∀ k : Nat, ∃ t1, Returns (fun fuel => erase hashMod8 fuel scenario2 k) t1) ∧
    (∀ i p : Nat, scenario2.psl_[i]? = some (some p) →
      ∃ r, Returns (fun fuel => shiftLoop fuel (scenario2.data_.set i none)
        (scenario2.psl_.set i none) i (advance i scenario2.data_.length)) r) ∧
    (∀ s : Nat, ∃ c, Returns (fun fuel => growLoop fuel scenario2.data_.length s) c) ∧
    ∃ t1, Returns (fun fuel => rebuild hashMod8 fuel scenario2) t1) :=
  ⟨scenario2_reachable, C20_termination hashMod8 scenario2 scenario2_reachable⟩

end ClaimsTermination

end RobinHoodHashTable
